import Mathlib

/-!
Verification development for the gunrock/essentials worked algorithms:
vertex k-core decomposition (kcore.hxx) and single-source betweenness
centrality (bc.hxx), over a shallow embedding of the frontier-driven
operator engine described by the design specification.  The operator
predicates, `reset`, `loop` and `is_converged` bodies are translated from
the source; the generic engine (Advance / Filter execution, the enactor
round driver, frontier operations), which is not part of the two source
files, is modelled from the specification, with the unspecified parallel
execution order linearized to list order (the spec requires predicates to
be correct under any interleaving; the sequential order is one of them).
Machine `int` values are modelled as `Int`; `float` values as `Rat`.
-/

namespace Essentials

/-- Immutable graph collaborator: a vertex count and adjacency lists
(dense integer vertex ids; out-of-range vertices have no neighbors).
`adj` is the per-vertex neighbor enumeration consumed by the engine. -/
structure SimpleG where
  n : Nat
  adjL : List (List Nat)

/-- Neighbor enumeration of a vertex (empty when out of range). -/
def SimpleG.adj (g : SimpleG) (v : Nat) : List Nat :=
  g.adjL.getD v []

/-- Well-formed undirected simple graph: adjacency table sized to the
vertex count, in-range neighbor ids, no self loops, no duplicate
neighbors, and symmetric adjacency. -/
def WellFormed (g : SimpleG) : Prop :=
  g.adjL.length = g.n ∧
  ∀ v, v < g.n →
    (g.adj v).Nodup ∧
    ∀ w, w ∈ g.adj v → w < g.n ∧ w ≠ v ∧ v ∈ g.adj w

instance (g : SimpleG) : Decidable (WellFormed g) := by
  unfold WellFormed
  infer_instance

/-- Mutable k-core state: the user's `k_cores` output buffer and the
Problem's `degrees` / `deleted` / `to_be_deleted` arrays (modelled as
total functions over vertex ids), plus the enactor's active frontier and
iteration counter. -/
structure KState where
  k_cores : Nat → Int
  degrees : Nat → Int
  deleted : Nat → Bool
  to_be_deleted : Nat → Bool
  frontier : List Nat
  iteration : Int

/-- Translation of kcore `problem_t::reset`: zero `k_cores` and
`to_be_deleted` on `[0,n)`, set `degrees` to the graph's actual neighbor
counts, then mark zero-degree vertices deleted. -/
def kreset (g : SimpleG) (s : KState) : KState :=
  let degrees' := fun v => if v < g.n then ((g.adj v).length : Int) else s.degrees v
  { s with
    k_cores := fun v => if v < g.n then 0 else s.k_cores v
    to_be_deleted := fun v => if v < g.n then false else s.to_be_deleted v
    degrees := degrees'
    deleted := fun v => if v < g.n then decide (degrees' v = 0) else s.deleted v }

/-- Translation of the kcore `advance_op` lambda on one edge
(source, neighbor): skip deleted or still-high-degree sources, otherwise
record the core number, mark the source to be deleted, and push the
neighbor iff it is not already deleted. -/
def kadvOne (k : Int) (s : KState) (source neighbor : Nat) : KState × Bool :=
  if s.deleted source = true then (s, false)
  else if s.degrees source > k then (s, false)
  else
    let s1 := { s with
      k_cores := Function.update s.k_cores source k
      to_be_deleted := Function.update s.to_be_deleted source true }
    if s1.deleted neighbor = true then (s1, false) else (s1, true)

/-- Modelled from the spec: Advance visits every edge incident to a
frontier element and appends the destinations for which the predicate
returns true (section 4.2).  Runs `advance_op` over the out-edges of one
source. -/
def kadvEdges (k : Int) (source : Nat) (s : KState) : List Nat → KState × List Nat
  | [] => (s, [])
  | d :: ds =>
    let r1 := kadvOne k s source d
    let r2 := kadvEdges k source r1.1 ds
    (r2.1, (if r1.2 then [d] else []) ++ r2.2)

/-- Modelled from the spec: Advance over all frontier elements in order. -/
def kadvSrcs (g : SimpleG) (k : Int) (s : KState) : List Nat → KState × List Nat
  | [] => (s, [])
  | v :: vs =>
    let r1 := kadvEdges k v s (g.adj v)
    let r2 := kadvSrcs g k r1.1 vs
    (r2.1, r1.2 ++ r2.2)

/-- Modelled from the spec: one vertex-to-vertex forward Advance call over
the active frontier, which then becomes the list of appended
destinations. -/
def kadvance (g : SimpleG) (k : Int) (s : KState) : KState :=
  let r := kadvSrcs g k s s.frontier
  { r.1 with frontier := r.2 }

/-- Translation of the `mark_deleted` thrust transform in kcore `loop`:
`deleted[i] | to_be_deleted[i]` on `[0,n)`. -/
def kmark (g : SimpleG) (s : KState) : KState :=
  { s with
    deleted := fun v =>
      if v < g.n then (s.deleted v || s.to_be_deleted v) else s.deleted v }

/-- Translation of the kcore `filter_op` lambda on one vertex: skip
deleted vertices, otherwise atomically add `-1` to the degree and keep
the vertex iff the returned (pre-decrement) value was `k + 1`. -/
def kfilterOne (k : Int) (s : KState) (v : Nat) : KState × Bool :=
  if s.deleted v = true then (s, false)
  else
    let old := s.degrees v
    let s1 := { s with degrees := Function.update s.degrees v (old + -1) }
    if old ≠ k + 1 then (s1, false) else (s1, true)

/-- Modelled from the spec: Filter evaluates the predicate exactly once
per frontier element (section 4.3), keeping the elements for which it
returned true. -/
def kfilterList (k : Int) (s : KState) : List Nat → KState × List Nat
  | [] => (s, [])
  | v :: vs =>
    let r1 := kfilterOne k s v
    let r2 := kfilterList k r1.1 vs
    (r2.1, (if r1.2 then [v] else []) ++ r2.2)

/-- Modelled from the spec: one Filter call over the active frontier,
which then becomes the list of kept elements. -/
def kfilter (k : Int) (s : KState) : KState :=
  let r := kfilterList k s s.frontier
  { r.1 with frontier := r.2 }

/-- Translation of the kcore inner `while(!f->is_empty())` loop body
(advance, merge to-be-deleted into deleted, filter), with an explicit
iteration bound. -/
def kinner (g : SimpleG) (k : Int) : Nat → KState → KState
  | 0, s => s
  | fuel + 1, s =>
    if s.frontier = [] then s
    else kinner g k fuel (kfilter k (kmark g (kadvance g k s)))

/-- Translation of kcore `enactor_t::loop`: `k = iteration + 1`, then the
inner while loop; the while is modelled with bound `n + 2`, which the
development proves sufficient on well-formed graphs. -/
def kloop (g : SimpleG) (s : KState) : KState :=
  kinner g (s.iteration + 1) (g.n + 2) s

/-- Translation of kcore `enactor_t::is_converged`: true iff every vertex
has been deleted; as a side effect the frontier is unconditionally
reseeded to the full vertex range. -/
def kconverged (g : SimpleG) (s : KState) : KState × Bool :=
  ({ s with frontier := List.range g.n },
   decide (∀ v, v < g.n → s.deleted v = true))

/-- Modelled from the spec: the enactor round driver — `loop`, increment
the iteration counter, then evaluate `is_converged`, stopping when it
holds (sections 2 and 4.4), iterated up to an explicit round bound. -/
def kgo (g : SimpleG) : Nat → KState → KState × Bool
  | 0, s => (s, false)
  | fuel + 1, s =>
    let s1 := kloop g s
    let s2 := { s1 with iteration := s1.iteration + 1 }
    let r := kconverged g s2
    if r.2 then (r.1, true) else kgo g fuel r.1

/-- Translation of kcore `run` / `enact`: `reset` from an arbitrary prior
state, seed the frontier with the full vertex range (`prepare_frontier`),
start the iteration counter at 0, then run rounds until convergence or
the round bound is exhausted.  Returns the final state and whether the
run converged. -/
def kenact (g : SimpleG) (s0 : KState) (fuel : Nat) : KState × Bool :=
  kgo g fuel { kreset g s0 with frontier := List.range g.n, iteration := 0 }

/-- The set of not-yet-deleted vertices of a k-core state. -/
def aliveSet (g : SimpleG) (s : KState) : Finset Nat :=
  (Finset.range g.n).filter (fun v => s.deleted v = false)

/-- Remaining degree of a vertex within a set of surviving vertices:
the number of its graph neighbors that lie in the set. -/
def degW (g : SimpleG) (A : Finset Nat) (v : Nat) : Nat :=
  ((g.adj v).filter (fun w => decide (w ∈ A))).length

/-- A set of vertices every member of which keeps at least `k` neighbors
inside the set (a witness that its members lie in the k-core). -/
def IsCoreSet (g : SimpleG) (k : Nat) (S : Finset Nat) : Prop :=
  S ⊆ Finset.range g.n ∧ ∀ v ∈ S, k ≤ degW g S v

instance (g : SimpleG) (k : Nat) (S : Finset Nat) : Decidable (IsCoreSet g k S) := by
  unfold IsCoreSet
  infer_instance

/-- The k-core of the graph: the union (hence the largest) of all vertex
sets whose members keep at least `k` neighbors inside the set. -/
def CoreSet (g : SimpleG) (k : Nat) : Finset Nat :=
  Finset.sup
    ((Finset.range g.n).powerset.filter (fun S => IsCoreSet g k S)) id

/-- The core number of a vertex: the greatest `k` (at most `n`) for which
the vertex belongs to the k-core. -/
def coreNum (g : SimpleG) (v : Nat) : Nat :=
  Nat.findGreatest (fun k => v ∈ CoreSet g k) g.n

/-- Modelled from the spec: the reference repeated-min-degree-peeling
algorithm picks, among the surviving vertices, one of minimum remaining
degree (the least-indexed such vertex). -/
def pickMin (g : SimpleG) (A : Finset Nat) : Nat :=
  ((A.sort (· ≤ ·)).argmin (degW g A)).getD 0

/-- Modelled from the spec: one peeling pass — repeatedly remove a
minimum-remaining-degree vertex, assigning it as core number the running
maximum of the minimum degrees observed so far. -/
def peelGo (g : SimpleG) : Nat → Finset Nat → Nat → (Nat → Nat) → (Nat → Nat)
  | 0, _, _, cores => cores
  | steps + 1, A, m, cores =>
    if A = ∅ then cores
    else
      let u := pickMin g A
      let m' := max m (degW g A u)
      peelGo g steps (A.erase u) m' (Function.update cores u m')

/-- Modelled from the spec: the reference repeated-min-degree-peeling
core numbers, starting from the full vertex set. -/
def peelCores (g : SimpleG) : Nat → Nat :=
  peelGo g g.n (Finset.range g.n) 0 (fun _ => 0)

/-- Invariant tying a k-core state at an inner-round boundary to the set
`A` of surviving vertices, at threshold `k`: deletion flags mirror `A`,
surviving degrees equal remaining degrees within `A`, survivors have
edges, to-be-deleted is merged, and the frontier is a duplicate-free
in-range list containing every survivor whose remaining degree is at
most `k`. -/
def KInv (g : SimpleG) (k : Nat) (A : Finset Nat) (s : KState) : Prop :=
  A ⊆ Finset.range g.n ∧
  (∀ v, v < g.n → (s.deleted v = false ↔ v ∈ A)) ∧
  (∀ v ∈ A, s.degrees v = (degW g A v : Int)) ∧
  (∀ v ∈ A, g.adj v ≠ []) ∧
  (∀ v, v < g.n → s.to_be_deleted v = true → s.deleted v = true) ∧
  s.frontier.Nodup ∧ (∀ v ∈ s.frontier, v < g.n) ∧
  (∀ v ∈ A, degW g A v ≤ k → v ∈ s.frontier)

/-- Mutable betweenness-centrality state: the user's `sigmas` and
`bc_values` output buffers and the Problem's `labels` / `deltas` arrays
(floats modelled as rationals, `int` labels as `Int`), plus the enactor's
active frontier, phase flag, depth and iteration counters. -/
structure BCState where
  sigmas : Nat → Rat
  bc_values : Nat → Rat
  labels : Nat → Int
  deltas : Nat → Rat
  frontier : List Nat
  forward : Bool
  depth : Int
  iteration : Int

/-- Translation of bc `problem_t::reset` with single source `ss`: fill
`sigmas`, `bc_values`, `deltas` with 0 and `labels` with -1 on `[0,n)`,
then overwrite `sigmas[ss] = 1` and `labels[ss] = 0`. -/
def bcReset (g : SimpleG) (ss : Nat) (s : BCState) : BCState :=
  { s with
    sigmas := fun v => if v = ss then 1 else if v < g.n then 0 else s.sigmas v
    bc_values := fun v => if v < g.n then 0 else s.bc_values v
    labels := fun v => if v = ss then 0 else if v < g.n then -1 else s.labels v
    deltas := fun v => if v < g.n then 0 else s.deltas v }

/-- Translation of the bc `forward_op` lambda on one edge (src, dst):
compare-and-swap the destination label against the sentinel -1, bail out
when the label was already set to a different level, otherwise atomically
add `sigmas[src]` to `sigmas[dst]`; push the destination iff the
compare-and-swap succeeded. -/
def fwdOne (s : BCState) (src dst : Nat) : BCState × Bool :=
  let new_label := s.labels src + 1
  let old_label := s.labels dst
  let s1 :=
    if old_label = -1 then
      { s with labels := Function.update s.labels dst new_label }
    else s
  if old_label ≠ -1 ∧ new_label ≠ old_label then (s1, false)
  else
    let s2 := { s1 with
      sigmas := Function.update s1.sigmas dst (s1.sigmas dst + s1.sigmas src) }
    (s2, decide (old_label = -1))

/-- Modelled from the spec: forward Advance over the out-edges of one
source (section 4.2), linearized to list order. -/
def fwdEdges (src : Nat) (s : BCState) : List Nat → BCState × List Nat
  | [] => (s, [])
  | d :: ds =>
    let r1 := fwdOne s src d
    let r2 := fwdEdges src r1.1 ds
    (r2.1, (if r1.2 then [d] else []) ++ r2.2)

/-- Modelled from the spec: forward Advance over all frontier elements. -/
def fwdSrcs (g : SimpleG) (s : BCState) : List Nat → BCState × List Nat
  | [] => (s, [])
  | v :: vs =>
    let r1 := fwdEdges v s (g.adj v)
    let r2 := fwdSrcs g r1.1 vs
    (r2.1, r1.2 ++ r2.2)

/-- Modelled from the spec: one forward Advance call; the frontier is
replaced by the appended destinations. -/
def bcFwdAdvance (g : SimpleG) (s : BCState) : BCState :=
  let r := fwdSrcs g s s.frontier
  { r.1 with frontier := r.2 }

/-- Translation of the bc `backward_op` lambda on one edge (src, dst):
skip the single source; when `labels[src]` equals the current depth and
`labels[dst]` equals depth + 1, atomically add
`sigmas[src] / sigmas[dst] * (1 + deltas[dst])` to both `deltas[src]` and
`bc_values[src]`; always return false. -/
def bwdOne (ss : Nat) (depth : Int) (s : BCState) (src dst : Nat) : BCState × Bool :=
  if src = ss then (s, false)
  else
    let s_label := s.labels src
    if s.labels src ≠ depth then (s, false)
    else
      let d_label := s.labels dst
      if d_label ≠ s_label + 1 then (s, false)
      else
        let update := s.sigmas src / s.sigmas dst * (1 + s.deltas dst)
        let s1 := { s with
          deltas := Function.update s.deltas src (s.deltas src + update) }
        let s2 := { s1 with
          bc_values := Function.update s1.bc_values src (s1.bc_values src + update) }
        (s2, false)

/-- Modelled from the spec: backward Advance over the out-edges of one
source, collecting the (always-false) predicate verdicts. -/
def bwdEdges (ss : Nat) (depth : Int) (src : Nat) (s : BCState) :
    List Nat → BCState × List Nat
  | [] => (s, [])
  | d :: ds =>
    let r1 := bwdOne ss depth s src d
    let r2 := bwdEdges ss depth src r1.1 ds
    (r2.1, (if r1.2 then [d] else []) ++ r2.2)

/-- Modelled from the spec: backward Advance over all frontier elements. -/
def bwdSrcs (g : SimpleG) (ss : Nat) (depth : Int) (s : BCState) :
    List Nat → BCState × List Nat
  | [] => (s, [])
  | v :: vs =>
    let r1 := bwdEdges ss depth v s (g.adj v)
    let r2 := bwdSrcs g ss depth r1.1 vs
    (r2.1, r1.2 ++ r2.2)

/-- Modelled from the spec: one backward Advance call, invoked by the
source with the frontier-swap argument set to false, so the input
frontier is retained unchanged for the next round. -/
def bcBwdAdvance (g : SimpleG) (ss : Nat) (depth : Int) (s : BCState) : BCState :=
  (bwdSrcs g ss depth s s.frontier).1

/-- Translation of bc `enactor_t::loop`: in the forward phase run the
forward Advance then increment `depth`; in the backward phase run the
backward Advance at the current depth then decrement `depth`. -/
def bcLoop (g : SimpleG) (ss : Nat) (s : BCState) : BCState :=
  if s.forward then
    let s1 := bcFwdAdvance g s
    { s1 with depth := s1.depth + 1 }
  else
    let s1 := bcBwdAdvance g ss s.depth s
    { s1 with depth := s1.depth - 1 }

/-- Translation of bc `enactor_t::is_converged`: in the forward phase,
when the active frontier has emptied, reseed it to the full vertex range,
switch to the backward phase and set `depth = iteration - 1`, always
returning false; in the backward phase, return true exactly when `depth`
is 0, scaling every `bc_values` entry by 0.5 at that point. -/
def bcConverged (g : SimpleG) (s : BCState) : BCState × Bool :=
  if s.forward then
    if s.frontier = [] then
      ({ s with frontier := List.range g.n, forward := false,
                depth := s.iteration - 1 }, false)
    else (s, false)
  else
    if s.depth = 0 then
      ({ s with bc_values := fun v =>
          if v < g.n then (1 / 2 : Rat) * s.bc_values v else s.bc_values v },
       true)
    else (s, false)

/-- Modelled from the spec: one bc enactor round — `loop`, increment the
iteration counter, then evaluate `is_converged` (sections 2 and 4.4). -/
def bcRound (g : SimpleG) (ss : Nat) (s : BCState) : BCState × Bool :=
  let s1 := bcLoop g ss s
  let s2 := { s1 with iteration := s1.iteration + 1 }
  bcConverged g s2

/-- Modelled from the spec: the bc enactor round driver, iterated until
`is_converged` holds or an explicit round bound runs out. -/
def bcGo (g : SimpleG) (ss : Nat) : Nat → BCState → BCState × Bool
  | 0, s => (s, false)
  | fuel + 1, s =>
    let r := bcRound g ss s
    if r.2 then (r.1, true) else bcGo g ss fuel r.1

/-- Translation of bc `run` / `enact`: `reset` from an arbitrary prior
state, fresh enactor state (`forward = true`, `depth = 0`, iteration 0,
empty frontier), seed the frontier with the single source
(`prepare_frontier`), then run rounds until convergence or the bound is
exhausted. -/
def bcPrep (g : SimpleG) (ss : Nat) (s0 : BCState) : BCState :=
  { bcReset g ss s0 with
    frontier := [] ++ [ss], forward := true, depth := 0, iteration := 0 }

/-- Modelled from the spec: the full bc run. -/
def bcEnact (g : SimpleG) (ss : Nat) (s0 : BCState) (fuel : Nat) : BCState × Bool :=
  bcGo g ss fuel (bcPrep g ss s0)

/-- Modelled from the spec: the list of round-boundary states of a bc
run — the state after `reset` and `prepare_frontier`, followed by the
state after each round's `is_converged` evaluation. -/
def bcGoTrace (g : SimpleG) (ss : Nat) : Nat → BCState → List BCState
  | 0, _ => []
  | fuel + 1, s =>
    let r := bcRound g ss s
    r.1 :: (if r.2 then [] else bcGoTrace g ss fuel r.1)

/-- Modelled from the spec: the round-boundary state trace of a full bc
run, starting from the post-reset, post-prepare state. -/
def bcTrace (g : SimpleG) (ss : Nat) (s0 : BCState) (fuel : Nat) : List BCState :=
  bcPrep g ss s0 :: bcGoTrace g ss fuel (bcPrep g ss s0)

/-- Invariant of a bc run with single source `ss`: the source keeps
sigma 1, centrality 0 and label 0, and in the forward phase every
frontier element carries a non-negative (already assigned) label. -/
def BCInv (ss : Nat) (st : BCState) : Prop :=
  st.sigmas ss = 1 ∧ st.bc_values ss = 0 ∧ st.labels ss = 0 ∧
  (st.forward = true → ∀ v ∈ st.frontier, 0 ≤ st.labels v)

/-- A blank k-core state used as the arbitrary pre-run state of concrete
instances. -/
def kzero : KState :=
  { k_cores := fun _ => 0, degrees := fun _ => 0, deleted := fun _ => false,
    to_be_deleted := fun _ => false, frontier := [], iteration := 0 }

/-- A blank bc state used as the arbitrary pre-run state of concrete
instances. -/
def bczero : BCState :=
  { sigmas := fun _ => 0, bc_values := fun _ => 0, labels := fun _ => 0,
    deltas := fun _ => 0, frontier := [], forward := true, depth := 0,
    iteration := 0 }

/-- Concrete triangle graph (3 mutually connected vertices). -/
def triG : SimpleG := { n := 3, adjL := [[1, 2], [0, 2], [0, 1]] }

/-- Concrete 5-vertex path graph 0-1-2-3-4. -/
def pathG : SimpleG := { n := 5, adjL := [[1], [0, 2], [1, 3], [2, 4], [3]] }

/-- Concrete k-core state: vertex 0 alive with remaining degree 2 while
the threshold is 1. -/
def c2s : KState :=
  { kzero with
    degrees := fun _ => 2
    frontier := [0] }

/-- Concrete bc state in the forward phase with an emptied frontier. -/
def c5s : BCState :=
  { bczero with
    frontier := []
    forward := true
    iteration := 3 }

/-- Concrete bc state in the backward phase at depth 0. -/
def c6s : BCState :=
  { bczero with
    forward := false
    depth := 0
    frontier := List.range 3
    bc_values := fun _ => 4 }

/-- Concrete bc state for single-operator witnesses. -/
def c3s : BCState :=
  { bczero with
    labels := fun v => if v = 0 then 0 else -1
    sigmas := fun v => if v = 0 then 1 else 0 }

lemma kfilterOne_deleted (k : Int) (s : KState) (v : Nat) :
    (kfilterOne k s v).1.deleted = s.deleted := by
  by_cases h : s.deleted v = true
  · simp [kfilterOne, h]
  · by_cases hc : s.degrees v = k + 1 <;> simp [kfilterOne, h, hc]

lemma kfilterOne_degrees_other (k : Int) (s : KState) (v w : Nat) (h : w ≠ v) :
    (kfilterOne k s v).1.degrees w = s.degrees w := by
  by_cases hd : s.deleted v = true
  · simp [kfilterOne, hd]
  · by_cases hc : s.degrees v = k + 1 <;>
      simp [kfilterOne, hd, hc, Function.update_apply, h]

lemma kfilterOne_degrees_self (k : Int) (s : KState) (v : Nat)
    (h : s.deleted v = false) :
    (kfilterOne k s v).1.degrees v = s.degrees v - 1 := by
  by_cases hc : s.degrees v = k + 1 <;>
    simp [kfilterOne, h, hc, Function.update_apply] <;> ring

lemma kfilterList_deleted (k : Int) (s : KState) (l : List Nat) :
    (kfilterList k s l).1.deleted = s.deleted := by
  induction l generalizing s with
  | nil => rfl
  | cons w t ih => simp only [kfilterList]; rw [ih, kfilterOne_deleted]

lemma kfilterList_degrees_notmem (k : Int) (s : KState) (l : List Nat) (v : Nat)
    (h : v ∉ l) :
    (kfilterList k s l).1.degrees v = s.degrees v := by
  induction l generalizing s with
  | nil => rfl
  | cons w t ih =>
    simp only [kfilterList]
    rw [ih _ (fun hm => h (List.mem_cons_of_mem w hm)),
      kfilterOne_degrees_other k s w v (fun hvw => h (hvw ▸ List.mem_cons_self w t))]

lemma kfilterList_degrees_once (k : Int) (s : KState) (l : List Nat) (v : Nat)
    (hl : l.Nodup) (hv : v ∈ l) (ha : s.deleted v = false) :
    (kfilterList k s l).1.degrees v = s.degrees v - 1 := by
  induction l generalizing s with
  | nil => simp at hv
  | cons w t ih =>
    simp only [kfilterList]
    rcases List.mem_cons.mp hv with hvw | hvt
    · subst hvw
      rw [kfilterList_degrees_notmem k _ t v (by simpa using (List.nodup_cons.mp hl).1),
        kfilterOne_degrees_self k s v ha]
    · have hvw : v ≠ w := by
        rintro rfl
        exact (List.nodup_cons.mp hl).1 hvt
      rw [ih _ (List.nodup_cons.mp hl).2 hvt
          (by rw [kfilterOne_deleted]; exact ha),
        kfilterOne_degrees_other k s w v hvw]

lemma kfilterOne_spec (k : Int) (s : KState) (v : Nat) (l : List Nat) :
    (s.deleted v = true → kfilterOne k s v = (s, false)) ∧
    (s.deleted v = false →
      (kfilterOne k s v).1.degrees v = s.degrees v - 1 ∧
      (∀ w, w ≠ v → (kfilterOne k s v).1.degrees w = s.degrees w) ∧
      (kfilterOne k s v).1.deleted = s.deleted ∧
      (kfilterOne k s v).1.k_cores = s.k_cores ∧
      (kfilterOne k s v).1.to_be_deleted = s.to_be_deleted ∧
      ((kfilterOne k s v).2 = true ↔ s.degrees v = k + 1) ∧
      (l.Nodup → v ∈ l → (kfilterList k s l).1.degrees v = s.degrees v - 1)) := by
  constructor
  · intro h
    unfold kfilterOne
    rw [if_pos (by simp [h])]
  · intro h
    refine ⟨kfilterOne_degrees_self k s v h,
      fun w hw => kfilterOne_degrees_other k s v w hw,
      kfilterOne_deleted k s v, ?_, ?_, ?_,
      fun hl hv => kfilterList_degrees_once k s l v hl hv h⟩
    · by_cases hc : s.degrees v = k + 1 <;> simp [kfilterOne, h, hc]
    · by_cases hc : s.degrees v = k + 1 <;> simp [kfilterOne, h, hc]
    · by_cases hc : s.degrees v = k + 1 <;> simp [kfilterOne, h, hc]

/-- C2 (amended): in the k-core Filter predicate, a deleted frontier
element is rejected untouched; a not-yet-deleted element has its
remaining-degree counter atomically decremented exactly once (also
exactly once across a whole Filter call on a duplicate-free frontier,
with no other counter or flag modified), and the element is re-admitted
into the active frontier if and only if the counter value before the
decrement equals `k + 1` — that is, the decrement caused the counter to
become exactly `k`, not `k + 1`. -/
theorem c2_filter_decrement (k : Int) (s : KState) (v : Nat) (l : List Nat) :
    (s.deleted v = true → kfilterOne k s v = (s, false)) ∧
    (s.deleted v = false →
      (kfilterOne k s v).1.degrees v = s.degrees v - 1 ∧
      (∀ w, w ≠ v → (kfilterOne k s v).1.degrees w = s.degrees w) ∧
      (kfilterOne k s v).1.deleted = s.deleted ∧
      (kfilterOne k s v).1.k_cores = s.k_cores ∧
      (kfilterOne k s v).1.to_be_deleted = s.to_be_deleted ∧
      ((kfilterOne k s v).2 = true ↔ s.degrees v = k + 1) ∧
      (l.Nodup → v ∈ l → (kfilterList k s l).1.degrees v = s.degrees v - 1)) :=
  kfilterOne_spec k s v l

/-- C2, behavior the claim as stated asserts, refuted: a vertex with
remaining degree `k + 1 = 2` at threshold `k = 1` is re-admitted by the
Filter predicate, yet its decremented counter is `1 = k`, not
`k + 1 = 2`; so re-admission does not imply that the decrement made the
counter equal `k + 1`. -/
theorem c2_counterexample :
    (kfilterOne 1 c2s 0).2 = true ∧
    ¬ ((kfilterOne 1 c2s 0).1.degrees 0 = 1 + 1) := by
  constructor
  · rfl
  · decide

/-- C2 witness: the amended theorem evaluated on the concrete state of
the counterexample. -/
theorem c2_witness :
    c2s.deleted 0 = false ∧
    (kfilterOne 1 c2s 0).1.degrees 0 = c2s.degrees 0 - 1 ∧
    ((kfilterOne 1 c2s 0).2 = true ↔ c2s.degrees 0 = 1 + 1) := by
  refine ⟨rfl, ?_, ?_⟩
  · exact ((c2_filter_decrement 1 c2s 0 [0]).2 rfl).1
  · exact ((c2_filter_decrement 1 c2s 0 [0]).2 rfl).2.2.2.2.2.1

lemma bwdOne_fields (ss : Nat) (d : Int) (s : BCState) (src dst : Nat) :
    (bwdOne ss d s src dst).1.sigmas = s.sigmas ∧
    (bwdOne ss d s src dst).1.labels = s.labels ∧
    (bwdOne ss d s src dst).1.frontier = s.frontier ∧
    (bwdOne ss d s src dst).1.forward = s.forward ∧
    (bwdOne ss d s src dst).1.depth = s.depth ∧
    (bwdOne ss d s src dst).1.iteration = s.iteration := by
  by_cases h0 : src = ss
  · simp [bwdOne, h0]
  · by_cases h1 : s.labels src = d
    · by_cases h2 : s.labels dst = d + 1 <;>
        simp [bwdOne, h0, h1, h2]
    · simp [bwdOne, h0, h1]

lemma bwdEdges_fields (ss : Nat) (d : Int) (src : Nat) (s : BCState)
    (ds : List Nat) :
    (bwdEdges ss d src s ds).1.sigmas = s.sigmas ∧
    (bwdEdges ss d src s ds).1.labels = s.labels ∧
    (bwdEdges ss d src s ds).1.frontier = s.frontier ∧
    (bwdEdges ss d src s ds).1.forward = s.forward ∧
    (bwdEdges ss d src s ds).1.depth = s.depth ∧
    (bwdEdges ss d src s ds).1.iteration = s.iteration := by
  induction ds generalizing s with
  | nil => exact ⟨rfl, rfl, rfl, rfl, rfl, rfl⟩
  | cons e es ih =>
    have h1 := bwdOne_fields ss d s src e
    have h2 := ih (bwdOne ss d s src e).1
    simp only [bwdEdges]
    exact ⟨h2.1.trans h1.1, h2.2.1.trans h1.2.1, h2.2.2.1.trans h1.2.2.1,
      h2.2.2.2.1.trans h1.2.2.2.1, h2.2.2.2.2.1.trans h1.2.2.2.2.1,
      h2.2.2.2.2.2.trans h1.2.2.2.2.2⟩

lemma bwdSrcs_fields (g : SimpleG) (ss : Nat) (d : Int) (s : BCState)
    (l : List Nat) :
    (bwdSrcs g ss d s l).1.sigmas = s.sigmas ∧
    (bwdSrcs g ss d s l).1.labels = s.labels ∧
    (bwdSrcs g ss d s l).1.frontier = s.frontier ∧
    (bwdSrcs g ss d s l).1.forward = s.forward ∧
    (bwdSrcs g ss d s l).1.depth = s.depth ∧
    (bwdSrcs g ss d s l).1.iteration = s.iteration := by
  induction l generalizing s with
  | nil => exact ⟨rfl, rfl, rfl, rfl, rfl, rfl⟩
  | cons v vs ih =>
    have h1 := bwdEdges_fields ss d v s (g.adj v)
    have h2 := ih (bwdEdges ss d v s (g.adj v)).1
    simp only [bwdSrcs]
    exact ⟨h2.1.trans h1.1, h2.2.1.trans h1.2.1, h2.2.2.1.trans h1.2.2.1,
      h2.2.2.2.1.trans h1.2.2.2.1, h2.2.2.2.2.1.trans h1.2.2.2.2.1,
      h2.2.2.2.2.2.trans h1.2.2.2.2.2⟩

lemma bcBwdAdvance_depth (g : SimpleG) (ss : Nat) (d : Int) (s : BCState) :
    (bcBwdAdvance g ss d s).depth = s.depth :=
  (bwdSrcs_fields g ss d s s.frontier).2.2.2.2.1

lemma fwdOne_spec (s : BCState) (src dst : Nat) :
    ((fwdOne s src dst).1.labels dst =
      (if s.labels dst = -1 then s.labels src + 1 else s.labels dst)) ∧
    (∀ w, w ≠ dst → (fwdOne s src dst).1.labels w = s.labels w) ∧
    ((s.labels dst = -1 ∨ s.labels dst = s.labels src + 1) →
      (fwdOne s src dst).1.sigmas dst = s.sigmas dst + s.sigmas src ∧
      (fwdOne s src dst).1.labels dst = s.labels src + 1) ∧
    (¬(s.labels dst = -1 ∨ s.labels dst = s.labels src + 1) →
      (fwdOne s src dst).1.sigmas = s.sigmas) ∧
    (∀ w, w ≠ dst → (fwdOne s src dst).1.sigmas w = s.sigmas w) ∧
    (fwdOne s src dst).1.bc_values = s.bc_values ∧
    (fwdOne s src dst).1.deltas = s.deltas ∧
    ((fwdOne s src dst).2 = true ↔ s.labels dst = -1) := by
  by_cases h1 : s.labels dst = -1
  · refine ⟨?_, fun w hw => ?_, fun _ => ⟨?_, ?_⟩,
      fun hc => absurd (Or.inl h1) hc, fun w hw => ?_, ?_, ?_, ?_⟩
    · simp [fwdOne, h1, Function.update_apply]
    · simp [fwdOne, h1, Function.update_apply, hw]
    · simp [fwdOne, h1, Function.update_apply]
    · simp [fwdOne, h1, Function.update_apply]
    · simp [fwdOne, h1, Function.update_apply, hw]
    · simp [fwdOne, h1]
    · simp [fwdOne, h1]
    · simp [fwdOne, h1]
  · by_cases h2 : s.labels dst = s.labels src + 1
    · have h3 : ¬ (s.labels src + 1 = -1) := fun hc => h1 (h2.trans hc)
      have h4 : ¬ (s.labels src + 1 ≠ s.labels dst) := fun hc => hc h2.symm
      refine ⟨?_, fun w hw => ?_, fun _ => ⟨?_, ?_⟩,
        fun hc => absurd (Or.inr h2) hc, fun w hw => ?_, ?_, ?_, ?_⟩
    
      · simp [fwdOne, h1, h3, h4]
      · simp [fwdOne, h1, h3, h4]
      · simp [fwdOne, h1, h3, h4, Function.update_apply]
      · simp [fwdOne, h1, h3, h4, h2]
      · simp [fwdOne, h1, h3, h4, Function.update_apply, hw]
      · simp [fwdOne, h1, h3, h4]
      · simp [fwdOne, h1, h3, h4]
      · simp [fwdOne, h1, h3, h4]
    · have h4 : s.labels src + 1 ≠ s.labels dst := fun hc => h2 hc.symm
      refine ⟨?_, fun w hw => ?_, fun hc => ?_, fun _ => ?_,
        fun w hw => ?_, ?_, ?_, ?_⟩
      · simp [fwdOne, h1, h4]
      · simp [fwdOne, h1, h4]
      · rcases hc with hc | hc
        · exact absurd hc h1
        · exact absurd hc h2
      · simp [fwdOne, h1, h4]
      · simp [fwdOne, h1, h4]
      · simp [fwdOne, h1, h4]
      · simp [fwdOne, h1, h4]
      · simp [fwdOne, h1, h4]

/-- C3: in the bc forward-phase Advance predicate, the destination label
is written only when it still holds the sentinel -1 (first writer wins,
and then it becomes `labels[src] + 1`); `sigmas[dst]` is atomically
increased by `sigmas[src]` exactly when the destination label (after the
compare-and-swap) equals `labels[src] + 1`, and is untouched otherwise;
and the destination is appended to the output frontier exactly when the
compare-and-swap succeeded. -/
theorem c3_forward_op (s : BCState) (src dst : Nat) :
    ((fwdOne s src dst).1.labels dst =
      (if s.labels dst = -1 then s.labels src + 1 else s.labels dst)) ∧
    (∀ w, w ≠ dst → (fwdOne s src dst).1.labels w = s.labels w) ∧
    ((s.labels dst = -1 ∨ s.labels dst = s.labels src + 1) →
      (fwdOne s src dst).1.sigmas dst = s.sigmas dst + s.sigmas src ∧
      (fwdOne s src dst).1.labels dst = s.labels src + 1) ∧
    (¬(s.labels dst = -1 ∨ s.labels dst = s.labels src + 1) →
      (fwdOne s src dst).1.sigmas = s.sigmas) ∧
    (∀ w, w ≠ dst → (fwdOne s src dst).1.sigmas w = s.sigmas w) ∧
    (fwdOne s src dst).1.bc_values = s.bc_values ∧
    (fwdOne s src dst).1.deltas = s.deltas ∧
    ((fwdOne s src dst).2 = true ↔ s.labels dst = -1) :=
  fwdOne_spec s src dst

/-- C3 witness: the forward-op theorem instantiated at a concrete edge
(0, 1) with vertex 0 labeled 0 and vertex 1 unset. -/
theorem c3_witness :
    (fwdOne c3s 0 1).1.labels 1 =
      (if c3s.labels 1 = -1 then c3s.labels 0 + 1 else c3s.labels 1) ∧
    ((fwdOne c3s 0 1).2 = true ↔ c3s.labels 1 = -1) :=
  ⟨(c3_forward_op c3s 0 1).1, (c3_forward_op c3s 0 1).2.2.2.2.2.2.2⟩

lemma bwdOne_spec (ss : Nat) (depth : Int) (s : BCState) (src dst : Nat) :
    ((bwdOne ss depth s src dst).2 = false) ∧
    (src = ss → (bwdOne ss depth s src dst).1 = s) ∧
    (src ≠ ss →
      ((s.labels src = depth ∧ s.labels dst = depth + 1) →
        (bwdOne ss depth s src dst).1.deltas src =
          s.deltas src + s.sigmas src / s.sigmas dst * (1 + s.deltas dst) ∧
        (bwdOne ss depth s src dst).1.bc_values src =
          s.bc_values src + s.sigmas src / s.sigmas dst * (1 + s.deltas dst) ∧
        (∀ w, w ≠ src → (bwdOne ss depth s src dst).1.deltas w = s.deltas w ∧
          (bwdOne ss depth s src dst).1.bc_values w = s.bc_values w) ∧
        (bwdOne ss depth s src dst).1.sigmas = s.sigmas ∧
        (bwdOne ss depth s src dst).1.labels = s.labels) ∧
      (¬(s.labels src = depth ∧ s.labels dst = depth + 1) →
        (bwdOne ss depth s src dst).1 = s)) := by
  by_cases h0 : src = ss
  · exact ⟨by simp [bwdOne, h0], fun _ => by simp [bwdOne, h0],
      fun hc => absurd h0 hc⟩
  · by_cases h1 : s.labels src = depth
    · by_cases h2 : s.labels dst = depth + 1
      · have h2' : ¬ (s.labels dst ≠ s.labels src + 1) := by
          rw [h1]
          exact fun hc => hc h2
        refine ⟨?_, fun hc => absurd hc h0,
          fun _ => ⟨fun _ => ⟨?_, ?_, fun w hw => ⟨?_, ?_⟩, ?_, ?_⟩,
            fun hc => absurd ⟨h1, h2⟩ hc⟩⟩
        · simp [bwdOne, h0, h1, h2, h2']
        · simp [bwdOne, h0, h1, h2, h2', Function.update_apply]
        · simp [bwdOne, h0, h1, h2, h2', Function.update_apply]
        · simp [bwdOne, h0, h1, h2, h2', Function.update_apply, hw]
        · simp [bwdOne, h0, h1, h2, h2', Function.update_apply, hw]
        · simp [bwdOne, h0, h1, h2, h2']
        · simp [bwdOne, h0, h1, h2, h2']
      · have h2' : s.labels dst ≠ s.labels src + 1 := by
          rw [h1]
          exact h2
        refine ⟨?_, fun hc => absurd hc h0,
          fun _ => ⟨fun hc => absurd hc.2 h2, fun _ => ?_⟩⟩
        · simp [bwdOne, h0, h1, h2, h2']
        · simp [bwdOne, h0, h1, h2, h2']
    · refine ⟨?_, fun hc => absurd hc h0,
        fun _ => ⟨fun hc => absurd hc.1 h1, fun _ => ?_⟩⟩
      · simp [bwdOne, h0, h1]
      · simp [bwdOne, h0, h1]

/-- C4: in the bc backward-phase Advance predicate the verdict is always
false; for the single source the state is untouched; for any other
source, `deltas[src]` and `bc_values[src]` are each atomically increased
by `sigmas[src] / sigmas[dst] * (1 + deltas[dst])` exactly when
`labels[src]` equals the current depth and `labels[dst]` equals
depth + 1 (all other entries and arrays unchanged), and otherwise the
state is untouched. -/
theorem c4_backward_op (ss : Nat) (depth : Int) (s : BCState) (src dst : Nat) :
    ((bwdOne ss depth s src dst).2 = false) ∧
    (src = ss → (bwdOne ss depth s src dst).1 = s) ∧
    (src ≠ ss →
      ((s.labels src = depth ∧ s.labels dst = depth + 1) →
        (bwdOne ss depth s src dst).1.deltas src =
          s.deltas src + s.sigmas src / s.sigmas dst * (1 + s.deltas dst) ∧
        (bwdOne ss depth s src dst).1.bc_values src =
          s.bc_values src + s.sigmas src / s.sigmas dst * (1 + s.deltas dst) ∧
        (∀ w, w ≠ src → (bwdOne ss depth s src dst).1.deltas w = s.deltas w ∧
          (bwdOne ss depth s src dst).1.bc_values w = s.bc_values w) ∧
        (bwdOne ss depth s src dst).1.sigmas = s.sigmas ∧
        (bwdOne ss depth s src dst).1.labels = s.labels) ∧
      (¬(s.labels src = depth ∧ s.labels dst = depth + 1) →
        (bwdOne ss depth s src dst).1 = s)) :=
  bwdOne_spec ss depth s src dst

/-- C4 witness: the backward-op theorem instantiated at a concrete edge
with a non-source source vertex. -/
theorem c4_witness :
    (bwdOne 0 1 c3s 1 2).2 = false ∧
    ((1 : Nat) = 0 → (bwdOne 0 1 c3s 1 2).1 = c3s) :=
  ⟨(c4_backward_op 0 1 c3s 1 2).1, (c4_backward_op 0 1 c3s 1 2).2.1⟩

/-- C5: when the bc forward-phase frontier has emptied, `is_converged`
reseeds the frontier to the full vertex range, switches the phase flag to
backward, sets the depth counter to the enactor iteration minus 1, and
returns false. -/
theorem c5_phase_switch (g : SimpleG) (s : BCState)
    (hf : s.forward = true) (he : s.frontier = []) :
    (bcConverged g s).1.frontier = List.range g.n ∧
    (bcConverged g s).1.forward = false ∧
    (bcConverged g s).1.depth = s.iteration - 1 ∧
    (bcConverged g s).2 = false := by
  simp [bcConverged, hf, he]

/-- C5 witness: the phase-switch theorem evaluated on a concrete
forward-phase state with an empty frontier. -/
theorem c5_witness :
    (bcConverged triG c5s).1.frontier = List.range triG.n ∧
    (bcConverged triG c5s).1.forward = false ∧
    (bcConverged triG c5s).1.depth = c5s.iteration - 1 ∧
    (bcConverged triG c5s).2 = false :=
  c5_phase_switch triG c5s rfl rfl

/-- C6: in the bc backward phase, `loop` decreases the depth counter by
exactly one per round; `is_converged` returns true exactly when the depth
equals 0, and at that point every `bc_values` entry in `[0,n)` is
multiplied by one half before the run stops. -/
theorem c6_backward_round (g : SimpleG) (ss : Nat) (s : BCState)
    (hb : s.forward = false) :
    (bcLoop g ss s).depth = s.depth - 1 ∧
    ((bcConverged g s).2 = true ↔ s.depth = 0) ∧
    (s.depth = 0 → ∀ v, v < g.n →
      (bcConverged g s).1.bc_values v = (1 / 2 : Rat) * s.bc_values v) := by
  refine ⟨?_, ?_, ?_⟩
  · simp [bcLoop, hb, bcBwdAdvance_depth]
  · by_cases hd : s.depth = 0 <;> simp [bcConverged, hb, hd]
  · intro hd v hv
    simp [bcConverged, hb, hd, hv]

/-- C6 witness: the backward-round theorem evaluated on a concrete
backward-phase state at depth 0. -/
theorem c6_witness :
    (bcLoop triG 0 c6s).depth = c6s.depth - 1 ∧
    ((bcConverged triG c6s).2 = true ↔ c6s.depth = 0) :=
  ⟨(c6_backward_round triG 0 c6s rfl).1, (c6_backward_round triG 0 c6s rfl).2.1⟩

/-- C9: `reset` re-initializes every algorithm state array entry in
`[0,n)` (k_cores, degrees, deleted, to_be_deleted for k-core; sigmas,
bc_values, labels, deltas for bc) to a value independent of the prior
state, so a re-run behaves like a fresh Problem. -/
theorem c9_reset_no_residue (g : SimpleG) (ss : Nat) (s s' : KState)
    (t t' : BCState) (v : Nat) (hv : v < g.n) :
    (kreset g s).k_cores v = (kreset g s').k_cores v ∧
    (kreset g s).degrees v = (kreset g s').degrees v ∧
    (kreset g s).deleted v = (kreset g s').deleted v ∧
    (kreset g s).to_be_deleted v = (kreset g s').to_be_deleted v ∧
    (bcReset g ss t).sigmas v = (bcReset g ss t').sigmas v ∧
    (bcReset g ss t).bc_values v = (bcReset g ss t').bc_values v ∧
    (bcReset g ss t).labels v = (bcReset g ss t').labels v ∧
    (bcReset g ss t).deltas v = (bcReset g ss t').deltas v := by
  simp [kreset, bcReset, hv]

/-- C9 witness: reset independence evaluated at vertex 0 of the triangle
graph from two different prior states. -/
theorem c9_witness :
    (kreset triG kzero).k_cores 0 = (kreset triG c2s).k_cores 0 ∧
    (bcReset triG 0 bczero).sigmas 0 = (bcReset triG 0 c3s).sigmas 0 :=
  ⟨(c9_reset_no_residue triG 0 kzero c2s bczero c3s 0 (by decide)).1,
   (c9_reset_no_residue triG 0 kzero c2s bczero c3s 0 (by decide)).2.2.2.2.1⟩

lemma fwdOne_fields (s : BCState) (src dst : Nat) :
    (fwdOne s src dst).1.bc_values = s.bc_values ∧
    (fwdOne s src dst).1.deltas = s.deltas ∧
    (fwdOne s src dst).1.frontier = s.frontier ∧
    (fwdOne s src dst).1.forward = s.forward ∧
    (fwdOne s src dst).1.depth = s.depth ∧
    (fwdOne s src dst).1.iteration = s.iteration := by
  by_cases h1 : s.labels dst = -1
  · by_cases h4 : s.labels src + 1 ≠ s.labels dst <;>
      simp [fwdOne, h1, h4]
  · by_cases h4 : s.labels src + 1 ≠ s.labels dst <;>
      simp [fwdOne, h1, h4]

lemma fwdOne_labels_frozen (s : BCState) (src dst w : Nat)
    (h : 0 ≤ s.labels w) :
    (fwdOne s src dst).1.labels w = s.labels w := by
  by_cases h1 : s.labels dst = -1
  · have hw : w ≠ dst := by
      intro hc
      rw [hc, h1] at h
      omega
    by_cases h4 : s.labels src + 1 ≠ s.labels dst <;>
      simp [fwdOne, h1, h4, Function.update_apply, hw]
  · by_cases h4 : s.labels src + 1 ≠ s.labels dst <;>
      simp [fwdOne, h1, h4]

lemma fwdOne_sigma_ss (ss : Nat) (s : BCState) (src dst : Nat)
    (hss : s.labels ss = 0) (hsrc : 0 ≤ s.labels src) :
    (fwdOne s src dst).1.sigmas ss = s.sigmas ss := by
  by_cases hd : dst = ss
  · subst hd
    have h1 : ¬ (s.labels dst = -1) := by rw [hss]; omega
    have h4 : s.labels src + 1 ≠ s.labels dst := by rw [hss]; omega
    simp [fwdOne, h1, h4]
  · have hd' : ss ≠ dst := fun hc => hd hc.symm
    by_cases h1 : s.labels dst = -1
    · by_cases h4 : s.labels src + 1 ≠ s.labels dst <;>
        simp [fwdOne, h1, h4, Function.update_apply, hd']
    · by_cases h4 : s.labels src + 1 ≠ s.labels dst <;>
        simp [fwdOne, h1, h4, Function.update_apply, hd']

lemma fwdOne_pushed_label (s : BCState) (src dst : Nat)
    (h : (fwdOne s src dst).2 = true) :
    (fwdOne s src dst).1.labels dst = s.labels src + 1 := by
  have hc := fwdOne_spec s src dst
  have h1 : s.labels dst = -1 := hc.2.2.2.2.2.2.2.mp h
  exact (hc.2.2.1 (Or.inl h1)).2

lemma fwdEdges_inv (ss src : Nat) (s : BCState) (ds : List Nat)
    (hss : s.labels ss = 0) (h1 : s.sigmas ss = 1) (hsrc : 0 ≤ s.labels src) :
    (fwdEdges src s ds).1.labels ss = 0 ∧
    (fwdEdges src s ds).1.sigmas ss = 1 ∧
    (∀ w, 0 ≤ s.labels w → (fwdEdges src s ds).1.labels w = s.labels w) ∧
    (∀ d ∈ (fwdEdges src s ds).2, 0 ≤ (fwdEdges src s ds).1.labels d) ∧
    (fwdEdges src s ds).1.bc_values = s.bc_values ∧
    (fwdEdges src s ds).1.frontier = s.frontier ∧
    (fwdEdges src s ds).1.forward = s.forward := by
  induction ds generalizing s with
  | nil =>
    exact ⟨hss, h1, fun w _ => rfl, fun d hd => absurd hd (List.not_mem_nil d),
      rfl, rfl, rfl⟩
  | cons e es ih =>
    have hz : (0 : Int) ≤ 0 := le_refl 0
    have hss0 : 0 ≤ s.labels ss := le_of_eq hss.symm
    have hss1 : (fwdOne s src e).1.labels ss = 0 :=
      (fwdOne_labels_frozen s src e ss hss0).trans hss
    have hsg1 : (fwdOne s src e).1.sigmas ss = 1 :=
      (fwdOne_sigma_ss ss s src e hss hsrc).trans h1
    have hsrc1 : 0 ≤ (fwdOne s src e).1.labels src := by
      rw [fwdOne_labels_frozen s src e src hsrc]
      exact hsrc
    have hrec := ih (fwdOne s src e).1 hss1 hsg1 hsrc1
    have hfields := fwdOne_fields s src e
    refine ⟨?_, ?_, ?_, ?_, ?_, ?_, ?_⟩
    · simpa [fwdEdges] using hrec.1
    · simpa [fwdEdges] using hrec.2.1
    · intro w hw
      have hw1 : (fwdOne s src e).1.labels w = s.labels w :=
        fwdOne_labels_frozen s src e w hw
      have hw2 : 0 ≤ (fwdOne s src e).1.labels w := by rw [hw1]; exact hw
      simpa [fwdEdges, hw1] using (hrec.2.2.1 w hw2).trans hw1
    · intro d hd
      simp only [fwdEdges, List.mem_append] at hd
      rcases hd with hd | hd
      · rcases hp : (fwdOne s src e).2 with hF | hT
        · rw [hp] at hd
          simp at hd
        · rw [hp] at hd
          simp at hd
          subst hd
          have hlab : (fwdOne s src d).1.labels d = s.labels src + 1 :=
            fwdOne_pushed_label s src d hp
          have hge : 0 ≤ (fwdOne s src d).1.labels d := by rw [hlab]; omega
          have := hrec.2.2.1 d hge
          simp only [fwdEdges]
          rw [this, hlab]
          omega
      · simpa [fwdEdges] using hrec.2.2.2.1 d hd
    · simp only [fwdEdges]
      rw [hrec.2.2.2.2.1, hfields.1]
    · simp only [fwdEdges]
      rw [hrec.2.2.2.2.2.1, hfields.2.2.1]
    · simp only [fwdEdges]
      rw [hrec.2.2.2.2.2.2, hfields.2.2.2.1]

lemma fwdSrcs_inv (g : SimpleG) (ss : Nat) (s : BCState) (l : List Nat)
    (hss : s.labels ss = 0) (h1 : s.sigmas ss = 1)
    (hl : ∀ v ∈ l, 0 ≤ s.labels v) :
    (fwdSrcs g s l).1.labels ss = 0 ∧
    (fwdSrcs g s l).1.sigmas ss = 1 ∧
    (∀ w, 0 ≤ s.labels w → (fwdSrcs g s l).1.labels w = s.labels w) ∧
    (∀ d ∈ (fwdSrcs g s l).2, 0 ≤ (fwdSrcs g s l).1.labels d) ∧
    (fwdSrcs g s l).1.bc_values = s.bc_values ∧
    (fwdSrcs g s l).1.forward = s.forward := by
  induction l generalizing s with
  | nil =>
    exact ⟨hss, h1, fun w _ => rfl,
      fun d hd => absurd hd (List.not_mem_nil d), rfl, rfl⟩
  | cons v vs ih =>
    have hv : 0 ≤ s.labels v := hl v (List.mem_cons_self v vs)
    have he := fwdEdges_inv ss v s (g.adj v) hss h1 hv
    have hrec := ih (fwdEdges v s (g.adj v)).1 he.1 he.2.1
      (fun w hw => by
        rw [he.2.2.1 w (hl w (List.mem_cons_of_mem v hw))]
        exact hl w (List.mem_cons_of_mem v hw))
    refine ⟨?_, ?_, ?_, ?_, ?_, ?_⟩
    · simpa [fwdSrcs] using hrec.1
    · simpa [fwdSrcs] using hrec.2.1
    · intro w hw
      have hw1 : (fwdEdges v s (g.adj v)).1.labels w = s.labels w :=
        he.2.2.1 w hw
      have hw2 : 0 ≤ (fwdEdges v s (g.adj v)).1.labels w := by
        rw [hw1]
        exact hw
      simpa [fwdSrcs, hw1] using (hrec.2.2.1 w hw2).trans hw1
    · intro d hd
      simp only [fwdSrcs, List.mem_append] at hd
      rcases hd with hd | hd
      · have hd0 : 0 ≤ (fwdEdges v s (g.adj v)).1.labels d :=
          he.2.2.2.1 d hd
        have hfin := hrec.2.2.1 d hd0
        simp only [fwdSrcs]
        rw [hfin]
        exact hd0
      · simpa [fwdSrcs] using hrec.2.2.2.1 d hd
    · simp only [fwdSrcs]
      rw [hrec.2.2.2.2.1, he.2.2.2.2.1]
    · simp only [fwdSrcs]
      rw [hrec.2.2.2.2.2, he.2.2.2.2.2.2]

lemma bwdOne_bc_ss (ss : Nat) (d : Int) (s : BCState) (src dst : Nat) :
    (bwdOne ss d s src dst).1.bc_values ss = s.bc_values ss := by
  by_cases h0 : src = ss
  · simp [bwdOne, h0]
  · have hss : ss ≠ src := fun hc => h0 hc.symm
    by_cases h1 : s.labels src = d
    · by_cases h2 : s.labels dst = d + 1 <;>
        simp [bwdOne, h0, h1, h2, Function.update_apply, hss]
    · simp [bwdOne, h0, h1]

lemma bwdEdges_bc_ss (ss : Nat) (d : Int) (src : Nat) (s : BCState)
    (ds : List Nat) :
    (bwdEdges ss d src s ds).1.bc_values ss = s.bc_values ss := by
  induction ds generalizing s with
  | nil => rfl
  | cons e es ih =>
    simp only [bwdEdges]
    rw [ih (bwdOne ss d s src e).1, bwdOne_bc_ss]

lemma bwdSrcs_bc_ss (g : SimpleG) (ss : Nat) (d : Int) (s : BCState)
    (l : List Nat) :
    (bwdSrcs g ss d s l).1.bc_values ss = s.bc_values ss := by
  induction l generalizing s with
  | nil => rfl
  | cons v vs ih =>
    simp only [bwdSrcs]
    rw [ih (bwdEdges ss d v s (g.adj v)).1, bwdEdges_bc_ss]

lemma bcRound_inv (g : SimpleG) (ss : Nat) (st : BCState) (h : BCInv ss st) :
    BCInv ss (bcRound g ss st).1 := by
  obtain ⟨h1, h2, h3, h4⟩ := h
  rcases hf : st.forward with hF | hT
  · -- backward phase round
    have hb := bwdSrcs_fields g ss st.depth st st.frontier
    have hbc := bwdSrcs_bc_ss g ss st.depth st st.frontier
    simp only [bcRound, bcLoop, hf, Bool.false_eq_true, if_false]
    by_cases hd : st.depth - 1 = 0
    · refine ⟨?_, ?_, ?_, ?_⟩ <;>
        simp [bcConverged, bcBwdAdvance, hf, hb.2.2.2.1, hb.2.2.2.2.1,
          hb.2.2.2.2.2, hd, hbc, hb.1, hb.2.1, h1, h2, h3]
    · refine ⟨?_, ?_, ?_, ?_⟩ <;>
        simp [bcConverged, bcBwdAdvance, hf, hb.2.2.2.1, hb.2.2.2.2.1,
          hb.2.2.2.2.2, hd, hbc, hb.1, hb.2.1, h1, h2, h3]
  · -- forward phase round
    have hfr : ∀ v ∈ st.frontier, 0 ≤ st.labels v := h4 hf
    have hs := fwdSrcs_inv g ss st st.frontier h3 h1 hfr
    simp only [bcRound, bcLoop, hf, if_true]
    by_cases he : (fwdSrcs g st st.frontier).2 = []
    · refine ⟨?_, ?_, ?_, ?_⟩ <;>
        simp [bcConverged, bcFwdAdvance, hf, hs.2.2.2.2.2, he, hs.1, hs.2.1,
          hs.2.2.2.1, h2, hs.2.2.2.2.1]
    · refine ⟨?_, ?_, ?_, ?_⟩ <;>
        simp [bcConverged, bcFwdAdvance, hf, hs.2.2.2.2.2, he, hs.1, hs.2.1,
          h2, hs.2.2.2.2.1]
      intro v hv
      exact hs.2.2.2.1 v hv

lemma fwdEdges_forward (src : Nat) (s : BCState) (ds : List Nat) :
    (fwdEdges src s ds).1.forward = s.forward := by
  induction ds generalizing s with
  | nil => rfl
  | cons e es ih =>
    simp only [fwdEdges]
    rw [ih (fwdOne s src e).1, (fwdOne_fields s src e).2.2.2.1]

lemma fwdSrcs_forward (g : SimpleG) (s : BCState) (l : List Nat) :
    (fwdSrcs g s l).1.forward = s.forward := by
  induction l generalizing s with
  | nil => rfl
  | cons v vs ih =>
    simp only [fwdSrcs]
    rw [ih (fwdEdges v s (g.adj v)).1, fwdEdges_forward]

lemma bcRound_backward_frontier (g : SimpleG) (ss : Nat) (st : BCState)
    (h : st.forward = false → st.frontier = List.range g.n) :
    (bcRound g ss st).1.forward = false →
    (bcRound g ss st).1.frontier = List.range g.n := by
  rcases hf : st.forward with hF | hT
  · have hb := bwdSrcs_fields g ss st.depth st st.frontier
    intro _
    have hkeep : (bcRound g ss st).1.frontier = st.frontier := by
      simp only [bcRound, bcLoop, hf, Bool.false_eq_true, if_false]
      by_cases hd : (bwdSrcs g ss st.depth st st.frontier).1.depth - 1 = 0 <;>
        simp [bcConverged, bcBwdAdvance, hf, hb.2.2.2.1, hd, hb.2.2.1]
    rw [hkeep]
    exact h hf
  · simp only [bcRound, bcLoop, hf, if_true]
    have hfw : (fwdSrcs g st st.frontier).1.forward = st.forward :=
      fwdSrcs_forward g st st.frontier
    by_cases he : (fwdSrcs g st st.frontier).2 = [] <;>
      simp [bcConverged, bcFwdAdvance, hfw, hf, he]

lemma bcGoTrace_pres (g : SimpleG) (ss : Nat) (P : BCState → Prop)
    (hP : ∀ st, P st → P (bcRound g ss st).1) :
    ∀ (fuel : Nat) (st : BCState), P st →
      ∀ x ∈ bcGoTrace g ss fuel st, P x := by
  intro fuel
  induction fuel with
  | zero =>
    intro st _ x hx
    simp [bcGoTrace] at hx
  | succ m ih =>
    intro st hst x hx
    simp only [bcGoTrace] at hx
    rcases List.mem_cons.mp hx with hx | hx
    · rw [hx]
      exact hP st hst
    · rcases hr : (bcRound g ss st).2 with hF | hT
      · rw [hr] at hx
        simp only [Bool.false_eq_true, if_false] at hx
        exact ih (bcRound g ss st).1 (hP st hst) x hx
      · rw [hr] at hx
        simp at hx

lemma bcPrep_inv (g : SimpleG) (ss : Nat) (s0 : BCState) (hss : ss < g.n) :
    BCInv ss (bcPrep g ss s0) := by
  refine ⟨?_, ?_, ?_, fun _ v hv => ?_⟩
  · simp [bcPrep, bcReset]
  · simp [bcPrep, bcReset, hss]
  · simp [bcPrep, bcReset]
  · simp only [bcPrep, List.nil_append, List.mem_singleton] at hv
    subst hv
    simp [bcPrep, bcReset]

/-- C8: throughout a bc run with single source `ss` (from the completion
of reset and frontier preparation to the end of the run), every
round-boundary state of the trace keeps `sigmas[ss] = 1` and
`bc_values[ss] = 0`: no operator invocation ever changes either value. -/
theorem c8_source_sigma_bc_invariant (g : SimpleG) (ss : Nat) (s0 : BCState)
    (fuel i : Nat) (hss : ss < g.n)
    (hi : i < (bcTrace g ss s0 fuel).length) :
    ((bcTrace g ss s0 fuel).get ⟨i, hi⟩).sigmas ss = 1 ∧
    ((bcTrace g ss s0 fuel).get ⟨i, hi⟩).bc_values ss = 0 := by
  have hmem : (bcTrace g ss s0 fuel).get ⟨i, hi⟩ ∈ bcTrace g ss s0 fuel :=
    List.get_mem _ _ _
  have hinv : BCInv ss ((bcTrace g ss s0 fuel).get ⟨i, hi⟩) := by
    rcases List.mem_cons.mp hmem with hx | hx
    · rw [hx]
      exact bcPrep_inv g ss s0 hss
    · exact bcGoTrace_pres g ss (BCInv ss) (fun st h => bcRound_inv g ss st h)
        fuel (bcPrep g ss s0) (bcPrep_inv g ss s0 hss) _ hx
  exact ⟨hinv.1, hinv.2.1⟩

/-- C8 witness: the invariant evaluated at the first trace state of a
concrete run on the 5-vertex path with source 2. -/
theorem c8_witness :
    ((2 : Nat) < pathG.n ∧ 0 < (bcTrace pathG 2 bczero 12).length) ∧
    ((bcTrace pathG 2 bczero 12).get
        ⟨0, by decide⟩).sigmas 2 = 1 ∧
    ((bcTrace pathG 2 bczero 12).get
        ⟨0, by decide⟩).bc_values 2 = 0 :=
  ⟨⟨by decide, by decide⟩,
    c8_source_sigma_bc_invariant pathG 2 bczero 12 0 (by decide) (by decide)⟩

/-- C10: the bc backward-phase Advance predicate returns false for every
edge on every path through its body, so a backward Advance appends
nothing to the output frontier; and (the backward Advance being invoked
without frontier swap) every backward-phase round-boundary state of a run
keeps the frontier exactly the full vertex range seeded at the phase
switch. -/
theorem c10_backward_frontier (g : SimpleG) (ss : Nat) (s0 : BCState)
    (fuel i : Nat) (hi : i < (bcTrace g ss s0 fuel).length) :
    (∀ (d : Int) (s : BCState) (src dst : Nat),
      (bwdOne ss d s src dst).2 = false) ∧
    (∀ (d : Int) (s : BCState) (l : List Nat), (bwdSrcs g ss d s l).2 = []) ∧
    (((bcTrace g ss s0 fuel).get ⟨i, hi⟩).forward = false →
      ((bcTrace g ss s0 fuel).get ⟨i, hi⟩).frontier = List.range g.n) := by
  have hop : ∀ (d : Int) (s : BCState) (src dst : Nat),
      (bwdOne ss d s src dst).2 = false := by
    intro d s src dst
    exact (bwdOne_spec ss d s src dst).1
  have hedges : ∀ (d : Int) (src : Nat) (s : BCState) (ds : List Nat),
      (bwdEdges ss d src s ds).2 = [] := by
    intro d src s ds
    induction ds generalizing s with
    | nil => rfl
    | cons e es ih =>
      simp only [bwdEdges]
      rw [hop d s src e]
      simpa using ih (bwdOne ss d s src e).1
  have hsrcs : ∀ (d : Int) (s : BCState) (l : List Nat),
      (bwdSrcs g ss d s l).2 = [] := by
    intro d s l
    induction l generalizing s with
    | nil => rfl
    | cons v vs ih =>
      simp only [bwdSrcs]
      rw [hedges d v s (g.adj v)]
      simpa using ih (bwdEdges ss d v s (g.adj v)).1
  refine ⟨hop, hsrcs, ?_⟩
  have hmem : (bcTrace g ss s0 fuel).get ⟨i, hi⟩ ∈ bcTrace g ss s0 fuel :=
    List.get_mem _ _ _
  rcases List.mem_cons.mp hmem with hx | hx
  · rw [hx]
    intro hc
    rw [show (bcPrep g ss s0).forward = true from rfl] at hc
    cases hc
  · exact bcGoTrace_pres g ss
      (fun st => st.forward = false → st.frontier = List.range g.n)
      (fun st h => bcRound_backward_frontier g ss st h)
      fuel (bcPrep g ss s0) (fun hc => by cases hc) _ hx

/-- C10 witness: evaluated at the last trace state of a concrete run on
the 5-vertex path with source 2 (a backward-phase state). -/
theorem c10_witness :
    (bwdOne 2 1 bczero 1 0).2 = false ∧
    (((bcTrace pathG 2 bczero 12).get ⟨5, by decide⟩).forward = false →
      ((bcTrace pathG 2 bczero 12).get ⟨5, by decide⟩).frontier =
        List.range pathG.n) :=
  ⟨(c10_backward_frontier pathG 2 bczero 12 5 (by decide)).1 1 bczero 1 0,
   (c10_backward_frontier pathG 2 bczero 12 5 (by decide)).2.2⟩

lemma kgo_converged (g : SimpleG) (fuel : Nat) (s : KState)
    (h : (kgo g fuel s).2 = true) :
    (∀ v, v < g.n → (kgo g fuel s).1.deleted v = true) ∧
    (kgo g fuel s).1.frontier = List.range g.n := by
  induction fuel generalizing s with
  | zero => cases h
  | succ m ih =>
    by_cases hr : (kconverged g { kloop g s with
        iteration := (kloop g s).iteration + 1 }).2 = true
    · have hres : kgo g (m + 1) s = ((kconverged g { kloop g s with
          iteration := (kloop g s).iteration + 1 }).1, true) := by
        simp only [kgo, hr, if_true]
      rw [hres]
      have hall := of_decide_eq_true hr
      exact ⟨fun v hv => hall v hv, rfl⟩
    · have hres : kgo g (m + 1) s = kgo g m (kconverged g { kloop g s with
          iteration := (kloop g s).iteration + 1 }).1 := by
        simp only [kgo]
        rw [if_neg (by simpa using hr)]
      rw [hres] at h ⊢
      exact ih _ h

/-- C7 (amended): when the k-core run converges, every vertex's deleted
flag is true, but the frontier is not empty at convergence:
`is_converged` unconditionally reseeds it to the full vertex range
`[0,n)`, so after the converging check the frontier holds all `n`
vertices (nonempty whenever `n > 0`). -/
theorem c7_converged_deleted_frontier (g : SimpleG) (s0 : KState)
    (fuel : Nat) (h : (kenact g s0 fuel).2 = true) :
    (∀ v, v < g.n → (kenact g s0 fuel).1.deleted v = true) ∧
    (kenact g s0 fuel).1.frontier = List.range g.n ∧
    (0 < g.n → (kenact g s0 fuel).1.frontier ≠ []) := by
  have hg := kgo_converged g fuel
    { kreset g s0 with frontier := List.range g.n, iteration := 0 } h
  refine ⟨hg.1, hg.2, fun hn hc => ?_⟩
  have hc2 : List.range g.n = [] := by
    rw [← hg.2]
    exact hc
  rw [List.range_eq_nil] at hc2
  omega

/-- C7, behavior the claim as stated asserts, refuted: the k-core run on
the triangle graph converges, yet the frontier at convergence is not
empty (it has been reseeded to the full vertex range). -/
theorem c7_counterexample :
    (kenact triG kzero 4).2 = true ∧
    ¬ ((kenact triG kzero 4).1.frontier = []) := by
  constructor
  · decide
  · decide

/-- C7 witness: the amended theorem evaluated on the converged triangle
run. -/
theorem c7_witness :
    (kenact triG kzero 4).2 = true ∧
    (kenact triG kzero 4).1.frontier = List.range triG.n :=
  ⟨by decide, (c7_converged_deleted_frontier triG kzero 4 (by decide)).2.1⟩

lemma filter_length_mono (l : List Nat) (p q : Nat → Bool)
    (h : ∀ x ∈ l, p x = true → q x = true) :
    (l.filter p).length ≤ (l.filter q).length := by
  induction l with
  | nil => exact le_refl 0
  | cons x t ih =>
    have ht : ∀ y ∈ t, p y = true → q y = true :=
      fun y hy => h y (List.mem_cons_of_mem x hy)
    rcases hp : p x with hF | hT
    · rcases hq : q x with hF2 | hT2
      · simpa [List.filter_cons, hp, hq] using ih ht
      · simp only [List.filter_cons, hp, hq]
        simp only [Bool.false_eq_true, if_false, if_true, List.length_cons]
        exact le_trans (ih ht) (Nat.le_succ _)
    · have hq : q x = true := h x (List.mem_cons_self x t) hp
      simp only [List.filter_cons, hp, hq, if_true, List.length_cons]
      exact Nat.succ_le_succ (ih ht)

lemma degW_mono (g : SimpleG) {A B : Finset Nat} (h : A ⊆ B) (v : Nat) :
    degW g A v ≤ degW g B v := by
  unfold degW
  exact filter_length_mono (g.adj v) _ _
    (fun x _ hx => by
      simp only [decide_eq_true_eq] at hx ⊢
      exact h hx)

lemma degW_empty (g : SimpleG) (v : Nat) : degW g (∅ : Finset Nat) v = 0 := by
  unfold degW
  simp

lemma degW_le_pred_card (g : SimpleG) (S : Finset Nat) (v : Nat)
    (hnd : (g.adj v).Nodup) (hself : v ∉ g.adj v) (hS : v ∈ S) :
    degW g S v ≤ S.card - 1 := by
  unfold degW
  have hsub : ((g.adj v).filter (fun w => decide (w ∈ S))).toFinset ⊆
      S.erase v := by
    intro x hx
    rw [List.mem_toFinset, List.mem_filter] at hx
    rw [Finset.mem_erase]
    refine ⟨fun hc => ?_, by simpa using hx.2⟩
    rw [hc] at hx
    exact hself hx.1
  have hndf : ((g.adj v).filter (fun w => decide (w ∈ S))).Nodup :=
    hnd.filter _
  calc ((g.adj v).filter (fun w => decide (w ∈ S))).length
      = ((g.adj v).filter (fun w => decide (w ∈ S))).toFinset.card :=
        (List.toFinset_card_of_nodup hndf).symm
    _ ≤ (S.erase v).card := Finset.card_le_card hsub
    _ ≤ S.card - 1 := by rw [Finset.card_erase_of_mem hS]

lemma mem_coreSet_iff (g : SimpleG) (k : Nat) (v : Nat) :
    v ∈ CoreSet g k ↔ ∃ S, IsCoreSet g k S ∧ v ∈ S := by
  unfold CoreSet
  rw [Finset.mem_sup]
  constructor
  · rintro ⟨S, hS, hv⟩
    rw [Finset.mem_filter] at hS
    exact ⟨S, hS.2, hv⟩
  · rintro ⟨S, hS, hv⟩
    refine ⟨S, ?_, hv⟩
    rw [Finset.mem_filter, Finset.mem_powerset]
    exact ⟨hS.1, hS⟩

lemma coreSet_max (g : SimpleG) (k : Nat) (S : Finset Nat)
    (hS : IsCoreSet g k S) : S ⊆ CoreSet g k := by
  intro v hv
  rw [mem_coreSet_iff]
  exact ⟨S, hS, hv⟩

lemma coreSet_subset_range (g : SimpleG) (k : Nat) :
    CoreSet g k ⊆ Finset.range g.n := by
  intro v hv
  rw [mem_coreSet_iff] at hv
  obtain ⟨S, hS, hvS⟩ := hv
  exact hS.1 hvS

lemma coreSet_isCoreSet (g : SimpleG) (k : Nat) :
    IsCoreSet g k (CoreSet g k) := by
  refine ⟨coreSet_subset_range g k, fun v hv => ?_⟩
  rw [mem_coreSet_iff] at hv
  obtain ⟨S, hS, hvS⟩ := hv
  exact le_trans (hS.2 v hvS) (degW_mono g (coreSet_max g k S hS) v)

lemma coreSet_antitone (g : SimpleG) {j k : Nat} (h : j ≤ k) :
    CoreSet g k ⊆ CoreSet g j := by
  apply coreSet_max
  have hc := coreSet_isCoreSet g k
  exact ⟨hc.1, fun v hv => le_trans h (hc.2 v hv)⟩

lemma coreSet_zero (g : SimpleG) : CoreSet g 0 = Finset.range g.n := by
  apply Finset.Subset.antisymm (coreSet_subset_range g 0)
  apply coreSet_max
  exact ⟨Finset.Subset.refl _, fun v _ => Nat.zero_le _⟩

lemma coreSet_empty_of_le (g : SimpleG) (hWF : WellFormed g) (k : Nat)
    (hk : g.n ≤ k) : CoreSet g k = ∅ := by
  by_contra hne
  obtain ⟨v, hv⟩ := Finset.nonempty_of_ne_empty hne
  have hvn : v < g.n := Finset.mem_range.mp (coreSet_subset_range g k hv)
  have hdeg := (coreSet_isCoreSet g k).2 v hv
  have hself : v ∉ g.adj v := by
    intro hc
    exact absurd rfl ((hWF.2 v hvn).2 v hc).2.1
  have hle := degW_le_pred_card g (CoreSet g k) v (hWF.2 v hvn).1 hself hv
  have hcard : (CoreSet g k).card ≤ g.n := by
    calc (CoreSet g k).card ≤ (Finset.range g.n).card :=
          Finset.card_le_card (coreSet_subset_range g k)
      _ = g.n := Finset.card_range g.n
  omega

lemma coreSet_one (g : SimpleG) (hWF : WellFormed g) :
    CoreSet g 1 = (Finset.range g.n).filter (fun v => g.adj v ≠ []) := by
  apply Finset.Subset.antisymm
  · intro v hv
    have hvn := coreSet_subset_range g 1 hv
    rw [Finset.mem_filter]
    refine ⟨hvn, fun hc => ?_⟩
    have hdeg := (coreSet_isCoreSet g 1).2 v hv
    unfold degW at hdeg
    rw [hc] at hdeg
    simp at hdeg
  · apply coreSet_max
    refine ⟨Finset.filter_subset _ _, fun v hv => ?_⟩
    rw [Finset.mem_filter, Finset.mem_range] at hv
    obtain ⟨w, hw⟩ := List.exists_mem_of_ne_nil _ hv.2
    have hwprop := (hWF.2 v hv.1).2 w hw
    have hwmem : w ∈ (Finset.range g.n).filter (fun v => g.adj v ≠ []) := by
      rw [Finset.mem_filter, Finset.mem_range]
      refine ⟨hwprop.1, fun hc => ?_⟩
      rw [hc] at hwprop
      exact absurd hwprop.2.2 (List.not_mem_nil v)
    unfold degW
    have : w ∈ (g.adj v).filter
        (fun x => decide (x ∈ (Finset.range g.n).filter (fun u => g.adj u ≠ []))) := by
      rw [List.mem_filter]
      exact ⟨hw, by simpa using hwmem⟩
    calc 1 ≤ _ := List.length_pos_of_mem this
      _ = _ := rfl

lemma coreNum_eq_of (g : SimpleG) (v j : Nat) (hjn : j ≤ g.n)
    (hj : v ∈ CoreSet g j) (hj1 : v ∉ CoreSet g (j + 1)) :
    coreNum g v = j := by
  unfold coreNum
  have hle : j ≤ Nat.findGreatest (fun k => v ∈ CoreSet g k) g.n :=
    Nat.le_findGreatest hjn hj
  rcases Nat.lt_or_ge j (Nat.findGreatest (fun k => v ∈ CoreSet g k) g.n)
    with hlt | hge
  · exfalso
    have hiff := Nat.findGreatest_eq_iff.mp
      (rfl : Nat.findGreatest (fun k => v ∈ CoreSet g k) g.n =
        Nat.findGreatest (fun k => v ∈ CoreSet g k) g.n)
    have hlast : v ∈ CoreSet g (Nat.findGreatest (fun k => v ∈ CoreSet g k) g.n) :=
      hiff.2.1 (by omega)
    exact hj1 (coreSet_antitone g (by omega) hlast)
  · omega

lemma pickMin_spec (g : SimpleG) (A : Finset Nat) (h : A.Nonempty) :
    pickMin g A ∈ A ∧ ∀ v ∈ A, degW g A (pickMin g A) ≤ degW g A v := by
  unfold pickMin
  have hl : A.sort (· ≤ ·) ≠ [] := by
    intro hc
    have h2 : (A.sort (· ≤ ·)).length = A.card := Finset.length_sort _
    rw [hc] at h2
    have h3 : A = ∅ := Finset.card_eq_zero.mp (by simpa using h2.symm)
    rw [h3] at h
    exact Finset.not_nonempty_empty h
  rcases ha : (A.sort (· ≤ ·)).argmin (degW g A) with hnone | m
  · exfalso
    exact hl (List.argmin_eq_none.mp ha)
  · have hmem : m ∈ (A.sort (· ≤ ·)).argmin (degW g A) := by
      rw [ha]
      rfl
    constructor
    · simpa using (Finset.mem_sort (· ≤ ·)).mp (List.argmin_mem hmem)
    · intro v hv
      simpa using List.le_of_mem_argmin
        ((Finset.mem_sort (· ≤ ·)).mpr hv) hmem

lemma coreNum_mem (g : SimpleG) (v : Nat) (hv : v < g.n) :
    v ∈ CoreSet g (coreNum g v) := by
  rcases Nat.eq_zero_or_pos (coreNum g v) with h0 | hpos
  · rw [h0, coreSet_zero]
    exact Finset.mem_range.mpr hv
  · unfold coreNum at hpos ⊢
    have hiff := Nat.findGreatest_eq_iff.mp
      (rfl : Nat.findGreatest (fun k => v ∈ CoreSet g k) g.n =
        Nat.findGreatest (fun k => v ∈ CoreSet g k) g.n)
    exact hiff.2.1 (by omega)

lemma le_coreNum_of_mem (g : SimpleG) (hWF : WellFormed g) (v d : Nat)
    (hv : v ∈ CoreSet g d) : d ≤ coreNum g v := by
  have hdn : d ≤ g.n := by
    by_contra hc
    rw [coreSet_empty_of_le g hWF d (by omega)] at hv
    exact absurd hv (Finset.not_mem_empty v)
  exact Nat.le_findGreatest hdn hv

lemma isCoreSet_self_min (g : SimpleG) (A : Finset Nat)
    (hA : A ⊆ Finset.range g.n) (hne : A.Nonempty) :
    IsCoreSet g (degW g A (pickMin g A)) A :=
  ⟨hA, fun w hw => (pickMin_spec g A hne).2 w hw⟩

lemma peelGo_correct (g : SimpleG) (hWF : WellFormed g) :
    ∀ (steps : Nat) (A : Finset Nat) (m : Nat) (cores : Nat → Nat),
      A ⊆ Finset.range g.n →
      A.card ≤ steps →
      (∀ v, v < g.n → v ∉ A → cores v = coreNum g v) →
      (∀ v ∈ A, m ≤ coreNum g v) →
      (∀ c, CoreSet g c ⊆ A ∨ c ≤ m) →
      ∀ v, v < g.n → peelGo g steps A m cores v = coreNum g v := by
  intro steps
  induction steps with
  | zero =>
    intro A m cores hA hcard hdone _ _ v hv
    have hAe : A = ∅ := Finset.card_eq_zero.mp (Nat.le_zero.mp hcard)
    simp only [peelGo]
    exact hdone v hv (by rw [hAe]; exact Finset.not_mem_empty v)
  | succ st ih =>
    intro A m cores hA hcard hdone hmle hcore v hv
    by_cases hAe : A = ∅
    · simp only [peelGo, hAe, if_true]
      exact hdone v hv (by rw [hAe]; exact Finset.not_mem_empty v)
    · have hne : A.Nonempty := Finset.nonempty_of_ne_empty hAe
      have hpick := pickMin_spec g A hne
      have hu : pickMin g A ∈ A := hpick.1
      have hun : pickMin g A < g.n := Finset.mem_range.mp (hA hu)
      have hAcore : A ⊆ CoreSet g (degW g A (pickMin g A)) :=
        coreSet_max g _ A (isCoreSet_self_min g A hA hne)
      have hdle : ∀ w ∈ A, degW g A (pickMin g A) ≤ coreNum g w :=
        fun w hw => le_coreNum_of_mem g hWF w _ (hAcore hw)
      -- the new running maximum
      have hd' : ∀ c, CoreSet g c ⊆ A.erase (pickMin g A) ∨
          c ≤ max m (degW g A (pickMin g A)) := by
        intro c
        rcases hcore c with hsub | hle
        · by_cases hu' : pickMin g A ∈ CoreSet g c
          · right
            have h1 : c ≤ degW g (CoreSet g c) (pickMin g A) :=
              (coreSet_isCoreSet g c).2 _ hu'
            have h2 : degW g (CoreSet g c) (pickMin g A) ≤
                degW g A (pickMin g A) := degW_mono g hsub _
            omega
          · left
            intro x hx
            rw [Finset.mem_erase]
            exact ⟨fun hc => hu' (hc ▸ hx), hsub hx⟩
        · right
          omega
      have hmnew : max m (degW g A (pickMin g A)) = coreNum g (pickMin g A) := by
        have hle1 : max m (degW g A (pickMin g A)) ≤ coreNum g (pickMin g A) :=
          max_le (hmle _ hu) (hdle _ hu)
        have hge1 : coreNum g (pickMin g A) ≤ max m (degW g A (pickMin g A)) := by
          rcases hd' (coreNum g (pickMin g A)) with hsub | hle
          · exfalso
            have := hsub (coreNum_mem g (pickMin g A) hun)
            rw [Finset.mem_erase] at this
            exact this.1 rfl
          · exact hle
        omega
      simp only [peelGo, hAe, if_false]
      apply ih (A.erase (pickMin g A)) _ _
        (le_trans (Finset.erase_subset _ _) hA)
        (by rw [Finset.card_erase_of_mem hu]; omega)
        ?_ ?_ hd' v hv
      · intro w hw hwA
        by_cases hwu : w = pickMin g A
        · rw [hwu, Function.update_same, hmnew]
        · rw [Function.update_noteq hwu]
          apply hdone w hw
          intro hc
          exact hwA (Finset.mem_erase.mpr ⟨hwu, hc⟩)
      · intro w hw
        rw [Finset.mem_erase] at hw
        exact max_le (hmle w hw.2) (hdle w hw.2)

lemma peel_eq_coreNum (g : SimpleG) (hWF : WellFormed g) (v : Nat)
    (hv : v < g.n) : peelCores g v = coreNum g v := by
  unfold peelCores
  apply peelGo_correct g hWF g.n (Finset.range g.n) 0 (fun _ => 0)
    (Finset.Subset.refl _) (by rw [Finset.card_range])
    (fun w hw hwc => absurd (Finset.mem_range.mpr hw) hwc)
    (fun w _ => Nat.zero_le _)
    (fun c => Or.inl (coreSet_subset_range g c)) v hv

lemma kadvOne_spec (k : Int) (s : KState) (a b : Nat) :
    (kadvOne k s a b).1.deleted = s.deleted ∧
    (kadvOne k s a b).1.degrees = s.degrees ∧
    (kadvOne k s a b).1.frontier = s.frontier ∧
    (kadvOne k s a b).1.iteration = s.iteration ∧
    (kadvOne k s a b).1.k_cores =
      (if s.deleted a = false ∧ s.degrees a ≤ k
        then Function.update s.k_cores a k else s.k_cores) ∧
    (kadvOne k s a b).1.to_be_deleted =
      (if s.deleted a = false ∧ s.degrees a ≤ k
        then Function.update s.to_be_deleted a true else s.to_be_deleted) ∧
    ((kadvOne k s a b).2 = true ↔
      (s.deleted a = false ∧ s.degrees a ≤ k ∧ s.deleted b = false)) := by
  by_cases h1 : s.deleted a = true
  · have h1' : ¬ (s.deleted a = false) := by simp [h1]
    refine ⟨?_, ?_, ?_, ?_, ?_, ?_, ?_⟩ <;> simp [kadvOne, h1, h1']
  · have h1' : s.deleted a = false := by
      rcases hv : s.deleted a with hF | hT
      · rfl
      · exact absurd hv h1
    by_cases h2 : s.degrees a > k
    · have h2' : ¬ (s.degrees a ≤ k) := by omega
      refine ⟨?_, ?_, ?_, ?_, ?_, ?_, ?_⟩ <;> simp [kadvOne, h1, h2, h1', h2']
    · have h2' : s.degrees a ≤ k := by omega
      by_cases h3 : s.deleted b = true <;>
        refine ⟨?_, ?_, ?_, ?_, ?_, ?_, ?_⟩ <;>
          simp [kadvOne, h1, h2, h1', h2', h3]

lemma kadvEdges_spec (k : Int) (src : Nat) (s : KState) (ds : List Nat) :
    (kadvEdges k src s ds).1.deleted = s.deleted ∧
    (kadvEdges k src s ds).1.degrees = s.degrees ∧
    (kadvEdges k src s ds).1.frontier = s.frontier ∧
    (kadvEdges k src s ds).1.iteration = s.iteration ∧
    (kadvEdges k src s ds).1.k_cores =
      (if s.deleted src = false ∧ s.degrees src ≤ k ∧ ds ≠ []
        then Function.update s.k_cores src k else s.k_cores) ∧
    (kadvEdges k src s ds).1.to_be_deleted =
      (if s.deleted src = false ∧ s.degrees src ≤ k ∧ ds ≠ []
        then Function.update s.to_be_deleted src true else s.to_be_deleted) ∧
    (kadvEdges k src s ds).2 =
      (if s.deleted src = false ∧ s.degrees src ≤ k
        then ds.filter (fun d => s.deleted d = false) else []) := by
  induction ds generalizing s with
  | nil =>
    by_cases hq : s.deleted src = false ∧ s.degrees src ≤ k <;>
      refine ⟨rfl, rfl, rfl, rfl, ?_, ?_, ?_⟩ <;> simp [kadvEdges, hq]
  | cons d ds ih =>
    have h1 := kadvOne_spec k s src d
    have hrec := ih (kadvOne k s src d).1
    by_cases hq : s.deleted src = false ∧ s.degrees src ≤ k
    · have hq1 : (kadvOne k s src d).1.deleted src = false ∧
          (kadvOne k s src d).1.degrees src ≤ k := by
        rw [h1.1, h1.2.1]
        exact hq
      have hupk : (kadvOne k s src d).1.k_cores =
          Function.update s.k_cores src k := by
        rw [h1.2.2.2.2.1, if_pos hq]
      have hupt : (kadvOne k s src d).1.to_be_deleted =
          Function.update s.to_be_deleted src true := by
        rw [h1.2.2.2.2.2.1, if_pos hq]
      have hpush : (kadvOne k s src d).2 = decide (s.deleted d = false) := by
        rcases hv : s.deleted d with hF | hT
        · rw [(h1.2.2.2.2.2.2).mpr ⟨hq.1, hq.2, hv⟩]
          simp
        · have hne : ¬ ((kadvOne k s src d).2 = true) := by
            intro hc
            have h3 := (h1.2.2.2.2.2.2).mp hc
            rw [hv] at h3
            cases h3.2.2
          rcases hb : (kadvOne k s src d).2 with hF2 | hT2
          · simp
          · exact absurd hb hne
      refine ⟨?_, ?_, ?_, ?_, ?_, ?_, ?_⟩
      · simp only [kadvEdges]
        rw [hrec.1, h1.1]
      · simp only [kadvEdges]
        rw [hrec.2.1, h1.2.1]
      · simp only [kadvEdges]
        rw [hrec.2.2.1, h1.2.2.1]
      · simp only [kadvEdges]
        rw [hrec.2.2.2.1, h1.2.2.2.1]
      · simp only [kadvEdges]
        rw [hrec.2.2.2.2.1, h1.1, h1.2.1, hupk]
        by_cases hds : ds = []
        · simp [hds, hq]
        · simp [hds, hq, Function.update_idem]
      · simp only [kadvEdges]
        rw [hrec.2.2.2.2.2.1, h1.1, h1.2.1, hupt]
        by_cases hds : ds = []
        · simp [hds, hq]
        · simp [hds, hq, Function.update_idem]
      · simp only [kadvEdges]
        rw [hrec.2.2.2.2.2.2, h1.1, h1.2.1, hpush, if_pos hq, if_pos hq,
          List.filter_cons]
        rcases hv : s.deleted d with hF | hT <;> simp [hv]
    · have hq1 : ¬ ((kadvOne k s src d).1.deleted src = false ∧
          (kadvOne k s src d).1.degrees src ≤ k) := by
        rw [h1.1, h1.2.1]
        exact hq
      have hid : (kadvOne k s src d).1 = s := by
        have hk := h1.2.2.2.2.1
        have ht := h1.2.2.2.2.2.1
        rw [if_neg hq] at hk ht
        rcases hone : kadvOne k s src d with ⟨s', b⟩
        rw [hone] at h1 hk ht
        cases s
        cases s'
        simp only at h1 hk ht ⊢
        simp [h1.1, h1.2.1, h1.2.2.1, h1.2.2.2.1, hk, ht]
      have hnopush : (kadvOne k s src d).2 = false := by
        rcases hb : (kadvOne k s src d).2 with hF2 | hT2
        · rfl
        · have := (h1.2.2.2.2.2.2).mp hb
          exact absurd ⟨this.1, this.2.1⟩ hq
      refine ⟨?_, ?_, ?_, ?_, ?_, ?_, ?_⟩
      · simp only [kadvEdges]
        rw [hrec.1, h1.1]
      · simp only [kadvEdges]
        rw [hrec.2.1, h1.2.1]
      · simp only [kadvEdges]
        rw [hrec.2.2.1, h1.2.2.1]
      · simp only [kadvEdges]
        rw [hrec.2.2.2.1, h1.2.2.2.1]
      · have hq3 : ¬ (s.deleted src = false ∧ s.degrees src ≤ k ∧ ds ≠ []) :=
          fun hc => hq ⟨hc.1, hc.2.1⟩
        have hq4 : ¬ (s.deleted src = false ∧ s.degrees src ≤ k ∧ d :: ds ≠ []) :=
          fun hc => hq ⟨hc.1, hc.2.1⟩
        simp only [kadvEdges]
        rw [hrec.2.2.2.2.1, h1.1, h1.2.1, if_neg hq3, h1.2.2.2.2.1,
          if_neg hq, if_neg hq4]
      · have hq3 : ¬ (s.deleted src = false ∧ s.degrees src ≤ k ∧ ds ≠ []) :=
          fun hc => hq ⟨hc.1, hc.2.1⟩
        have hq4 : ¬ (s.deleted src = false ∧ s.degrees src ≤ k ∧ d :: ds ≠ []) :=
          fun hc => hq ⟨hc.1, hc.2.1⟩
        simp only [kadvEdges]
        rw [hrec.2.2.2.2.2.1, h1.1, h1.2.1, if_neg hq3, h1.2.2.2.2.2.1,
          if_neg hq, if_neg hq4]
      · simp only [kadvEdges]
        rw [hrec.2.2.2.2.2.2, h1.1, h1.2.1, if_neg hq, if_neg hq, hnopush]
        simp

lemma kadvSrcs_spec (g : SimpleG) (k : Int) (s : KState) (f : List Nat) :
    (kadvSrcs g k s f).1.deleted = s.deleted ∧
    (kadvSrcs g k s f).1.degrees = s.degrees ∧
    (kadvSrcs g k s f).1.frontier = s.frontier ∧
    (kadvSrcs g k s f).1.iteration = s.iteration ∧
    (∀ v, (kadvSrcs g k s f).1.k_cores v =
      if v ∈ f ∧ s.deleted v = false ∧ s.degrees v ≤ k ∧ g.adj v ≠ []
        then k else s.k_cores v) ∧
    (∀ v, (kadvSrcs g k s f).1.to_be_deleted v =
      if v ∈ f ∧ s.deleted v = false ∧ s.degrees v ≤ k ∧ g.adj v ≠ []
        then true else s.to_be_deleted v) ∧
    (kadvSrcs g k s f).2 =
      f.flatMap (fun src =>
        if s.deleted src = false ∧ s.degrees src ≤ k
          then (g.adj src).filter (fun d => s.deleted d = false) else []) := by
  induction f generalizing s with
  | nil =>
    refine ⟨rfl, rfl, rfl, rfl, fun v => ?_, fun v => ?_, by simp [kadvSrcs]⟩ <;>
      simp [kadvSrcs]
  | cons u vs ih =>
    have he := kadvEdges_spec k u s (g.adj u)
    have hrec := ih (kadvEdges k u s (g.adj u)).1
    have hdel : (kadvEdges k u s (g.adj u)).1.deleted = s.deleted := he.1
    have hdeg : (kadvEdges k u s (g.adj u)).1.degrees = s.degrees := he.2.1
    refine ⟨?_, ?_, ?_, ?_, fun v => ?_, fun v => ?_, ?_⟩
    · simp only [kadvSrcs]
      rw [hrec.1, hdel]
    · simp only [kadvSrcs]
      rw [hrec.2.1, hdeg]
    · simp only [kadvSrcs]
      rw [hrec.2.2.1, he.2.2.1]
    · simp only [kadvSrcs]
      rw [hrec.2.2.2.1, he.2.2.2.1]
    · simp only [kadvSrcs]
      rw [hrec.2.2.2.2.1 v, hdel, hdeg, he.2.2.2.2.1]
      by_cases hv : v ∈ vs ∧ s.deleted v = false ∧ s.degrees v ≤ k ∧ g.adj v ≠ []
      · rw [if_pos hv, if_pos ⟨List.mem_cons_of_mem u hv.1, hv.2⟩]
      · rw [if_neg hv]
        by_cases hu : s.deleted u = false ∧ s.degrees u ≤ k ∧ g.adj u ≠ []
        · rw [if_pos hu]
          by_cases hvu : v = u
          · subst hvu
            rw [Function.update_same,
              if_pos ⟨List.mem_cons_self v vs, hu⟩]
          · rw [Function.update_noteq hvu]
            rw [if_neg (fun hc => ?_)]
            rcases List.mem_cons.mp hc.1 with h | h
            · exact hvu h
            · exact hv ⟨h, hc.2⟩
        · rw [if_neg hu]
          rw [if_neg (fun hc => ?_)]
          rcases List.mem_cons.mp hc.1 with h | h
          · exact hu (h ▸ hc.2)
          · exact hv ⟨h, hc.2⟩
    · simp only [kadvSrcs]
      rw [hrec.2.2.2.2.2.1 v, hdel, hdeg, he.2.2.2.2.2.1]
      by_cases hv : v ∈ vs ∧ s.deleted v = false ∧ s.degrees v ≤ k ∧ g.adj v ≠ []
      · rw [if_pos hv, if_pos ⟨List.mem_cons_of_mem u hv.1, hv.2⟩]
      · rw [if_neg hv]
        by_cases hu : s.deleted u = false ∧ s.degrees u ≤ k ∧ g.adj u ≠ []
        · rw [if_pos hu]
          by_cases hvu : v = u
          · subst hvu
            rw [Function.update_same,
              if_pos ⟨List.mem_cons_self v vs, hu⟩]
          · rw [Function.update_noteq hvu]
            rw [if_neg (fun hc => ?_)]
            rcases List.mem_cons.mp hc.1 with h | h
            · exact hvu h
            · exact hv ⟨h, hc.2⟩
        · rw [if_neg hu]
          rw [if_neg (fun hc => ?_)]
          rcases List.mem_cons.mp hc.1 with h | h
          · exact hu (h ▸ hc.2)
          · exact hv ⟨h, hc.2⟩
    · simp only [kadvSrcs, List.flatMap_cons]
      rw [hrec.2.2.2.2.2.2, hdel, hdeg, he.2.2.2.2.2.2]

lemma kfilterList_spec (k : Int) (s : KState) (l : List Nat) (v : Nat) :
    (kfilterList k s l).1.deleted = s.deleted ∧
    (kfilterList k s l).1.k_cores = s.k_cores ∧
    (kfilterList k s l).1.to_be_deleted = s.to_be_deleted ∧
    (kfilterList k s l).1.frontier = s.frontier ∧
    (kfilterList k s l).1.iteration = s.iteration ∧
    (kfilterList k s l).1.degrees v =
      s.degrees v - (if s.deleted v = true then 0 else (l.count v : Int)) ∧
    (kfilterList k s l).2.count v =
      (if s.deleted v = false ∧ k + 1 ≤ s.degrees v ∧
          s.degrees v < k + 1 + (l.count v : Int) then 1 else 0) := by
  induction l generalizing s with
  | nil =>
    refine ⟨rfl, rfl, rfl, rfl, rfl, ?_, ?_⟩
    · by_cases hd : s.deleted v = true <;> simp [kfilterList, hd]
    · rw [if_neg (fun hc => by
        simp only [List.count_nil, Nat.cast_zero] at hc
        omega)]
      simp [kfilterList]
  | cons w t ih =>
    have hone := kfilterOne_spec k s w [w]
    by_cases hd : s.deleted w = true
    · have hid : kfilterOne k s w = (s, false) := hone.1 hd
      have hrec := ih s
      refine ⟨?_, ?_, ?_, ?_, ?_, ?_, ?_⟩
      · simp only [kfilterList, hid]
        exact hrec.1
      · simp only [kfilterList, hid]
        exact hrec.2.1
      · simp only [kfilterList, hid]
        exact hrec.2.2.1
      · simp only [kfilterList, hid]
        exact hrec.2.2.2.1
      · simp only [kfilterList, hid]
        exact hrec.2.2.2.2.1
      · simp only [kfilterList, hid]
        rw [hrec.2.2.2.2.2.1]
        by_cases hv : s.deleted v = true
        · simp [hv]
        · have hvw : v ≠ w := fun hc => hv (hc ▸ hd)
          rw [if_neg hv, if_neg hv, List.count_cons_of_ne hvw]
      · simp only [kfilterList, hid]
        simp only [Bool.false_eq_true, if_false, List.nil_append]
        rw [hrec.2.2.2.2.2.2]
        by_cases hv : s.deleted v = false
        · by_cases hvw : v = w
          · exfalso
            rw [hvw, hd] at hv
            cases hv
          · rw [List.count_cons_of_ne hvw]
        · have hv' : ¬ (s.deleted v = false ∧ k + 1 ≤ s.degrees v ∧
                s.degrees v < k + 1 + ((w :: t).count v : Int)) :=
              fun hc => hv hc.1
          have hv'' : ¬ (s.deleted v = false ∧ k + 1 ≤ s.degrees v ∧
                s.degrees v < k + 1 + (t.count v : Int)) :=
              fun hc => hv hc.1
          rw [if_neg hv', if_neg hv'']
    · have hdF : s.deleted w = false := by
        rcases hb : s.deleted w with hF | hT
        · rfl
        · exact absurd hb hd
      have hw := hone.2 hdF
      have hs1deg : (kfilterOne k s w).1.degrees w = s.degrees w - 1 := hw.1
      have hs1dego : ∀ x, x ≠ w → (kfilterOne k s w).1.degrees x = s.degrees x :=
        hw.2.1
      have hs1del : (kfilterOne k s w).1.deleted = s.deleted := hw.2.2.1
      have hs1k : (kfilterOne k s w).1.k_cores = s.k_cores := hw.2.2.2.1
      have hs1t : (kfilterOne k s w).1.to_be_deleted = s.to_be_deleted :=
        hw.2.2.2.2.1
      have hverdict : ((kfilterOne k s w).2 = true ↔ s.degrees w = k + 1) :=
        hw.2.2.2.2.2.1
      have hs1fr : (kfilterOne k s w).1.frontier = s.frontier := by
        unfold kfilterOne
        rw [if_neg (by simp [hdF])]
        by_cases hc : s.degrees w = k + 1 <;> simp [hc]
      have hs1it : (kfilterOne k s w).1.iteration = s.iteration := by
        unfold kfilterOne
        rw [if_neg (by simp [hdF])]
        by_cases hc : s.degrees w = k + 1 <;> simp [hc]
      have hrec := ih (kfilterOne k s w).1
      refine ⟨?_, ?_, ?_, ?_, ?_, ?_, ?_⟩
      · simp only [kfilterList]
        rw [hrec.1, hs1del]
      · simp only [kfilterList]
        rw [hrec.2.1, hs1k]
      · simp only [kfilterList]
        rw [hrec.2.2.1, hs1t]
      · simp only [kfilterList]
        rw [hrec.2.2.2.1, hs1fr]
      · simp only [kfilterList]
        rw [hrec.2.2.2.2.1, hs1it]
      · simp only [kfilterList]
        rw [hrec.2.2.2.2.2.1, hs1del]
        by_cases hv : s.deleted v = true
        · have hvw : v ≠ w := fun hc => hd (hc ▸ hv)
          rw [if_pos hv, if_pos hv, hs1dego v hvw]
        · rw [if_neg hv, if_neg hv]
          by_cases hvw : v = w
          · subst hvw
            rw [hs1deg, List.count_cons_self]
            push_cast
            omega
          · rw [hs1dego v hvw, List.count_cons_of_ne hvw]
      · simp only [kfilterList]
        by_cases hvw : v = w
        · subst hvw
          rcases hc : (kfilterOne k s v).2 with hF | hT
          · have hne : ¬ (s.degrees v = k + 1) := by
              intro hx
              rw [hverdict.mpr hx] at hc
              cases hc
            simp only [Bool.false_eq_true, if_false, List.nil_append]
            rw [hrec.2.2.2.2.2.2, hs1del, hs1deg, List.count_cons_self]
            have hiff : (s.deleted v = false ∧ k + 1 ≤ s.degrees v - 1 ∧
                s.degrees v - 1 < k + 1 + (t.count v : Int)) ↔
                (s.deleted v = false ∧ k + 1 ≤ s.degrees v ∧
                s.degrees v < k + 1 + ((t.count v + 1 : Nat) : Int)) := by
              constructor
              · rintro ⟨a, b, c⟩
                exact ⟨a, by omega, by push_cast at c ⊢; omega⟩
              · rintro ⟨a, b, c⟩
                exact ⟨a, by omega, by push_cast at c ⊢; omega⟩
            rw [if_congr hiff rfl rfl]
          · have heq : s.degrees v = k + 1 := hverdict.mp hc
            simp only [if_true, List.cons_append, List.nil_append]
            rw [List.count_cons_self, hrec.2.2.2.2.2.2, hs1del, hs1deg]
            rw [if_neg (fun hx => by
              have := hx.2.1
              omega)]
            rw [if_pos ⟨hdF, by omega, by
              rw [List.count_cons_self]
              push_cast
              omega⟩]
        · have hcnt : (((if (kfilterOne k s w).2 = true then [w] else []) ++
              (kfilterList k (kfilterOne k s w).1 t).2).count v) =
              (kfilterList k (kfilterOne k s w).1 t).2.count v := by
            rcases hb : (kfilterOne k s w).2 with hF | hT
            · simp
            · simp only [if_true, List.cons_append, List.nil_append]
              rw [List.count_cons_of_ne hvw]
          rw [hcnt, hrec.2.2.2.2.2.2, hs1del, hs1dego v hvw,
            List.count_cons_of_ne hvw]

lemma count_flatMap (v : Nat) (l : List Nat) (fn : Nat → List Nat) :
    (l.flatMap fn).count v = (l.map (fun x => (fn x).count v)).sum := by
  induction l with
  | nil => rfl
  | cons x t ih =>
    rw [List.flatMap_cons, List.count_append, List.map_cons, List.sum_cons, ih]

lemma count_of_nodup (l : List Nat) (hl : l.Nodup) (a : Nat) :
    l.count a = if a ∈ l then 1 else 0 := by
  by_cases h : a ∈ l
  · rw [if_pos h, List.count_eq_one_of_mem hl h]
  · rw [if_neg h, List.count_eq_zero_of_not_mem h]

lemma filter_insert_length (u : Nat) (S : Finset Nat) (hu : u ∉ S) :
    ∀ (l : List Nat), l.Nodup →
      (l.filter (fun x => decide (x ∈ insert u S))).length =
        (l.filter (fun x => decide (x ∈ S))).length +
          (if u ∈ l then 1 else 0) := by
  intro l
  induction l with
  | nil =>
    intro _
    simp
  | cons x xs ih =>
    intro hl
    have hx : x ∉ xs := (List.nodup_cons.mp hl).1
    have hxs : xs.Nodup := (List.nodup_cons.mp hl).2
    simp only [List.filter_cons, decide_eq_true_eq]
    by_cases hxu : x = u
    · subst hxu
      rw [if_pos (Finset.mem_insert_self x S), if_neg hu, List.length_cons,
        ih hxs, if_neg hx, if_pos (List.mem_cons_self x xs)]
    · have hmm : (u ∈ x :: xs) ↔ u ∈ xs := by
        rw [List.mem_cons]
        constructor
        · rintro (h | h)
          · exact absurd h.symm hxu
          · exact h
        · exact Or.inr
      by_cases hxS : x ∈ S
      · rw [if_pos (Finset.mem_insert_of_mem hxS), if_pos hxS,
          List.length_cons, List.length_cons, ih hxs]
        by_cases hu2 : u ∈ xs
        · rw [if_pos hu2, if_pos (hmm.mpr hu2)]
        · rw [if_neg hu2, if_neg (fun hc => hu2 (hmm.mp hc))]
      · rw [if_neg (fun hc => ?_), if_neg hxS, ih hxs]
        · by_cases hu2 : u ∈ xs
          · rw [if_pos hu2, if_pos (hmm.mpr hu2)]
          · rw [if_neg hu2, if_neg (fun hc => hu2 (hmm.mp hc))]
        · rcases Finset.mem_insert.mp hc with h | h
          · exact hxu h
          · exact hxS h

lemma filter_sdiff_length (M : Finset Nat) :
    ∀ (l : List Nat) (A : Finset Nat), M ⊆ A →
      (l.filter (fun x => decide (x ∈ A))).length =
        (l.filter (fun x => decide (x ∈ A \ M))).length +
          (l.filter (fun x => decide (x ∈ M))).length := by
  intro l
  induction l with
  | nil =>
    intro A _
    simp
  | cons x xs ih =>
    intro A hMA
    simp only [List.filter_cons, decide_eq_true_eq]
    by_cases hxM : x ∈ M
    · rw [if_pos (hMA hxM), if_pos hxM,
        if_neg (fun hc => (Finset.mem_sdiff.mp hc).2 hxM),
        List.length_cons, List.length_cons, ih A hMA]
      omega
    · by_cases hxA : x ∈ A
      · rw [if_pos hxA, if_pos (Finset.mem_sdiff.mpr ⟨hxA, hxM⟩),
          if_neg hxM, List.length_cons, List.length_cons, ih A hMA]
        omega
      · rw [if_neg hxA, if_neg (fun hc => hxA (Finset.mem_sdiff.mp hc).1),
          if_neg hxM, ih A hMA]

lemma degW_sdiff (g : SimpleG) (A M : Finset Nat) (hMA : M ⊆ A) (v : Nat) :
    degW g A v = degW g (A \ M) v + degW g M v :=
  filter_sdiff_length M (g.adj v) A hMA

lemma degW_insert (g : SimpleG) (S : Finset Nat) (u : Nat) (hu : u ∉ S)
    (w : Nat) (hnd : (g.adj w).Nodup) :
    degW g (insert u S) w = degW g S w + (if u ∈ g.adj w then 1 else 0) :=
  filter_insert_length u S hu (g.adj w) hnd

lemma count_advOut (g : SimpleG) (hWF : WellFormed g) (k : Int) (s : KState)
    (w : Nat) (hw : s.deleted w = false) (hwn : w < g.n) :
    ∀ (f : List Nat), f.Nodup → (∀ x ∈ f, x < g.n) →
      ((f.flatMap (fun src =>
        if s.deleted src = false ∧ s.degrees src ≤ k
          then (g.adj src).filter (fun d => s.deleted d = false)
          else [])).count w)
      = degW g (f.toFinset.filter
          (fun u => s.deleted u = false ∧ s.degrees u ≤ k)) w := by
  intro f
  induction f with
  | nil =>
    intro _ _
    simp [degW]
  | cons u t ih =>
    intro hnd hrange
    have hu : u ∉ t := (List.nodup_cons.mp hnd).1
    have ht : t.Nodup := (List.nodup_cons.mp hnd).2
    have hun : u < g.n := hrange u (List.mem_cons_self u t)
    have htr : ∀ x ∈ t, x < g.n :=
      fun x hx => hrange x (List.mem_cons_of_mem u hx)
    have huMt : u ∉ t.toFinset.filter
        (fun x => s.deleted x = false ∧ s.degrees x ≤ k) := by
      intro hc
      exact hu (List.mem_toFinset.mp (Finset.mem_filter.mp hc).1)
    rw [List.flatMap_cons, List.count_append, ih ht htr, List.toFinset_cons,
      Finset.filter_insert]
    by_cases hq : s.deleted u = false ∧ s.degrees u ≤ k
    · rw [if_pos hq, if_pos hq,
        degW_insert g _ u huMt w (hWF.2 w hwn).1,
        List.count_filter (by simp [hw]),
        count_of_nodup (g.adj u) (hWF.2 u hun).1 w]
      have hsym : (w ∈ g.adj u) ↔ u ∈ g.adj w := by
        constructor
        · intro h
          exact ((hWF.2 u hun).2 w h).2.2
        · intro h
          exact ((hWF.2 w hwn).2 u h).2.2
      by_cases hmem : w ∈ g.adj u
      · rw [if_pos hmem, if_pos (hsym.mp hmem)]
        omega
      · rw [if_neg hmem, if_neg (fun hc => hmem (hsym.mpr hc))]
        omega
    · rw [if_neg hq, if_neg hq]
      simp

lemma kinner_step (g : SimpleG) (hWF : WellFormed g) (kN : Nat)
    (A : Finset Nat) (s : KState) (hinv : KInv g kN A s) :
    KInv g kN (A \ A.filter (fun v => degW g A v ≤ kN))
      (kfilter (kN : Int) (kmark g (kadvance g (kN : Int) s))) ∧
    (∀ v, (kfilter (kN : Int) (kmark g (kadvance g (kN : Int) s))).k_cores v =
      if v ∈ A.filter (fun v => degW g A v ≤ kN) then (kN : Int)
      else s.k_cores v) ∧
    (kfilter (kN : Int) (kmark g (kadvance g (kN : Int) s))).iteration =
      s.iteration ∧
    (A.filter (fun v => degW g A v ≤ kN) = ∅ →
      (kfilter (kN : Int) (kmark g (kadvance g (kN : Int) s))).frontier = []) ∧
    (∀ S, S ⊆ A → (∀ v ∈ S, kN + 1 ≤ degW g S v) →
      Disjoint S (A.filter (fun v => degW g A v ≤ kN))) := by
  obtain ⟨h1, h2, h3, h4, h5, h6, h7, h8⟩ := hinv
  set k : Int := (kN : Int) with hkdef
  set M : Finset Nat := A.filter (fun v => degW g A v ≤ kN)
  have hMA : M ⊆ A := Finset.filter_subset _ _
  have hadv := kadvSrcs_spec g k s s.frontier
  -- the advance-time qualification coincides with membership in M
  have hcond : ∀ v, (v ∈ s.frontier ∧ s.deleted v = false ∧
      s.degrees v ≤ k ∧ g.adj v ≠ []) ↔ v ∈ M := by
    intro v
    constructor
    · rintro ⟨hf, hdel, hdeg, _⟩
      have hvn : v < g.n := h7 v hf
      have hvA : v ∈ A := (h2 v hvn).mp hdel
      have hvdeg : degW g A v ≤ kN := by
        have h3v := h3 v hvA
        rw [h3v, hkdef] at hdeg
        exact_mod_cast hdeg
      exact Finset.mem_filter.mpr ⟨hvA, hvdeg⟩
    · intro hv
      have hvA : v ∈ A := hMA hv
      have hvdeg : degW g A v ≤ kN := (Finset.mem_filter.mp hv).2
      have hvn : v < g.n := Finset.mem_range.mp (h1 hvA)
      refine ⟨h8 v hvA hvdeg, (h2 v hvn).mpr hvA, ?_, h4 v hvA⟩
      rw [h3 v hvA, hkdef]
      exact_mod_cast hvdeg
  have hcond2 : ∀ v, (v ∈ s.frontier ∧ s.deleted v = false ∧
      s.degrees v ≤ k) ↔ v ∈ M := by
    intro v
    constructor
    · rintro ⟨hf, hdel, hdeg⟩
      have hvn : v < g.n := h7 v hf
      have hvA : v ∈ A := (h2 v hvn).mp hdel
      refine (hcond v).mp ⟨hf, hdel, hdeg, h4 v hvA⟩
    · intro hv
      have h := (hcond v).mpr hv
      exact ⟨h.1, h.2.1, h.2.2.1⟩
  -- fields of the advanced state
  have ha_del : (kadvance g k s).deleted = s.deleted := hadv.1
  have ha_deg : (kadvance g k s).degrees = s.degrees := hadv.2.1
  have ha_it : (kadvance g k s).iteration = s.iteration := hadv.2.2.2.1
  have ha_k : ∀ v, (kadvance g k s).k_cores v =
      if v ∈ M then k else s.k_cores v := by
    intro v
    rw [show (kadvance g k s).k_cores = (kadvSrcs g k s s.frontier).1.k_cores
        from rfl, hadv.2.2.2.2.1 v]
    by_cases hv : v ∈ M
    · rw [if_pos ((hcond v).mpr hv), if_pos hv]
    · rw [if_neg (fun hc => hv ((hcond v).mp hc)), if_neg hv]
  have ha_t : ∀ v, (kadvance g k s).to_be_deleted v =
      if v ∈ M then true else s.to_be_deleted v := by
    intro v
    rw [show (kadvance g k s).to_be_deleted =
        (kadvSrcs g k s s.frontier).1.to_be_deleted from rfl,
      hadv.2.2.2.2.2.1 v]
    by_cases hv : v ∈ M
    · rw [if_pos ((hcond v).mpr hv), if_pos hv]
    · rw [if_neg (fun hc => hv ((hcond v).mp hc)), if_neg hv]
  have ha_f : (kadvance g k s).frontier =
      s.frontier.flatMap (fun src =>
        if s.deleted src = false ∧ s.degrees src ≤ k
          then (g.adj src).filter (fun d => s.deleted d = false) else []) :=
    hadv.2.2.2.2.2.2
  -- fields of the marked state
  have hm_del : ∀ v, v < g.n →
      ((kmark g (kadvance g k s)).deleted v = false ↔ v ∈ A \ M) := by
    intro v hvn
    simp only [kmark, if_pos hvn]
    rw [show (kadvance g k s).deleted v = s.deleted v from by rw [ha_del],
      ha_t v]
    constructor
    · intro hc
      rw [Bool.or_eq_false_iff] at hc
      have hvA : v ∈ A := (h2 v hvn).mp hc.1
      have hvM : v ∉ M := by
        intro hm
        rw [if_pos hm] at hc
        cases hc.2
      exact Finset.mem_sdiff.mpr ⟨hvA, hvM⟩
    · intro hc
      obtain ⟨hvA, hvM⟩ := Finset.mem_sdiff.mp hc
      rw [Bool.or_eq_false_iff]
      refine ⟨(h2 v hvn).mpr hvA, ?_⟩
      rw [if_neg hvM]
      rcases hb : s.to_be_deleted v with hF | hT
      · rfl
      · exact absurd (((h2 v hvn).mpr hvA).symm.trans (h5 v hvn hb))
          Bool.false_ne_true
  have hm_del_hi : ∀ v, ¬ (v < g.n) →
      (kmark g (kadvance g k s)).deleted v = s.deleted v := by
    intro v hvn
    simp only [kmark, if_neg hvn]
    rw [ha_del]
  have hm_deg : (kmark g (kadvance g k s)).degrees = s.degrees := ha_deg
  have hm_k : ∀ v, (kmark g (kadvance g k s)).k_cores v =
      if v ∈ M then k else s.k_cores v := ha_k
  have hm_t : ∀ v, (kmark g (kadvance g k s)).to_be_deleted v =
      if v ∈ M then true else s.to_be_deleted v := ha_t
  have hm_it : (kmark g (kadvance g k s)).iteration = s.iteration := ha_it
  have hm_f : (kmark g (kadvance g k s)).frontier =
      s.frontier.flatMap (fun src =>
        if s.deleted src = false ∧ s.degrees src ≤ k
          then (g.adj src).filter (fun d => s.deleted d = false) else []) :=
    ha_f
  set s2 : KState := kmark g (kadvance g k s) with hs2def
  -- every advance output element is in range
  have hrange_out : ∀ v ∈ s2.frontier, v < g.n := by
    intro v hv
    rw [hm_f] at hv
    obtain ⟨src, hsrc, hvsrc⟩ := List.mem_flatMap.mp hv
    by_cases hq : s.deleted src = false ∧ s.degrees src ≤ k
    · rw [if_pos hq] at hvsrc
      have hvadj : v ∈ g.adj src := List.mem_of_mem_filter hvsrc
      exact ((hWF.2 src (h7 src hsrc)).2 v hvadj).1
    · rw [if_neg hq] at hvsrc
      exact absurd hvsrc (List.not_mem_nil v)
  -- the count of an alive vertex in the advance output is its degree in M
  have hMf : s.frontier.toFinset.filter
      (fun u => s.deleted u = false ∧ s.degrees u ≤ k) = M := by
    apply Finset.ext
    intro x
    rw [Finset.mem_filter, List.mem_toFinset]
    exact hcond2 x
  have hcount : ∀ v, v ∈ A \ M →
      s2.frontier.count v = degW g M v := by
    intro v hv
    have hvA : v ∈ A := (Finset.mem_sdiff.mp hv).1
    have hvn : v < g.n := Finset.mem_range.mp (h1 hvA)
    have halive : s.deleted v = false := (h2 v hvn).mpr hvA
    rw [hm_f, count_advOut g hWF k s v halive hvn s.frontier h6 h7, hMf]
  -- the filtered state
  have hfl := fun v => kfilterList_spec k s2 s2.frontier v
  have hs3_del : (kfilter k s2).deleted = s2.deleted := (hfl 0).1
  have hs3_k : (kfilter k s2).k_cores = s2.k_cores := (hfl 0).2.1
  have hs3_t : (kfilter k s2).to_be_deleted = s2.to_be_deleted := (hfl 0).2.2.1
  have hs3_it : (kfilter k s2).iteration = s2.iteration := (hfl 0).2.2.2.2.1
  have hs3_deg : ∀ v, (kfilter k s2).degrees v = s2.degrees v -
      (if s2.deleted v = true then 0 else (s2.frontier.count v : Int)) :=
    fun v => (hfl v).2.2.2.2.2.1
  have hs3_cnt : ∀ v, (kfilter k s2).frontier.count v =
      (if s2.deleted v = false ∧ k + 1 ≤ s2.degrees v ∧
        s2.degrees v < k + 1 + (s2.frontier.count v : Int) then 1 else 0) :=
    fun v => (hfl v).2.2.2.2.2.2
  -- frontier membership characterization after the filter
  have hAMn : ∀ v, v ∈ A \ M → v < g.n :=
    fun v hv => Finset.mem_range.mp (h1 (Finset.mem_sdiff.mp hv).1)
  have hsplit : ∀ v, degW g A v = degW g (A \ M) v + degW g M v :=
    degW_sdiff g A M hMA
  have hf' : ∀ v, v ∈ (kfilter k s2).frontier ↔
      (v ∈ A \ M ∧ degW g (A \ M) v ≤ kN) := by
    intro v
    rw [← List.count_pos_iff, hs3_cnt v]
    constructor
    · intro hpos
      by_cases hcnd : s2.deleted v = false ∧ k + 1 ≤ s2.degrees v ∧
          s2.degrees v < k + 1 + (s2.frontier.count v : Int)
      · have hvn : v < g.n := by
          by_contra hvn
          have hj : s2.frontier.count v = 0 := by
            apply List.count_eq_zero_of_not_mem
            intro hc
            exact hvn (hrange_out v hc)
          rw [hj] at hcnd
          push_cast at hcnd
          omega
        have hvAM : v ∈ A \ M := (hm_del v hvn).mp hcnd.1
        refine ⟨hvAM, ?_⟩
        have hdegv : s2.degrees v = (degW g A v : Int) := by
          rw [hm_deg]
          exact h3 v (Finset.mem_sdiff.mp hvAM).1
        have hcv : s2.frontier.count v = degW g M v := hcount v hvAM
        rw [hdegv, hcv] at hcnd
        have := hsplit v
        have h2c := hcnd.2.2
        push_cast at h2c
        omega
      · rw [if_neg hcnd] at hpos
        omega
    · rintro ⟨hvAM, hdeg⟩
      have hvn : v < g.n := hAMn v hvAM
      have hvM : v ∉ M := (Finset.mem_sdiff.mp hvAM).2
      have hvA : v ∈ A := (Finset.mem_sdiff.mp hvAM).1
      have hgt : kN + 1 ≤ degW g A v := by
        by_contra hc
        exact hvM (Finset.mem_filter.mpr ⟨hvA, by omega⟩)
      have hdegv : s2.degrees v = (degW g A v : Int) := by
        rw [hm_deg]
        exact h3 v hvA
      have hcv : s2.frontier.count v = degW g M v := hcount v hvAM
      rw [if_pos ⟨(hm_del v hvn).mpr hvAM, by
          rw [hdegv]
          push_cast
          omega, by
          rw [hdegv, hcv]
          have := hsplit v
          push_cast
          omega⟩]
      omega
  refine ⟨⟨?_, ?_, ?_, ?_, ?_, ?_, ?_, ?_⟩, ?_, ?_, ?_, ?_⟩
  · -- (i) A \ M ⊆ range n
    exact le_trans (Finset.sdiff_subset) h1
  · -- (ii) deleted flags mirror A \ M
    intro v hvn
    rw [hs3_del]
    exact hm_del v hvn
  · -- (iii) degrees are degrees within A \ M
    intro v hv
    have hvn : v < g.n := hAMn v hv
    rw [hs3_deg v, if_neg (by
        rw [(hm_del v hvn).mpr hv]
        simp), hcount v hv, hm_deg,
      h3 v (Finset.mem_sdiff.mp hv).1]
    have := hsplit v
    push_cast
    omega
  · -- (iv) survivors have edges
    intro v hv
    exact h4 v (Finset.mem_sdiff.mp hv).1
  · -- (v) to-be-deleted implies deleted
    intro v hvn ht
    rw [hs3_t] at ht
    rw [hs3_del]
    rw [hm_t v] at ht
    by_cases hvM : v ∈ M
    · have hnAM : v ∉ A \ M :=
        fun hc => (Finset.mem_sdiff.mp hc).2 hvM
      rcases hb : s2.deleted v with hF | hT
      · exact absurd ((hm_del v hvn).mp hb) hnAM
      · rfl
    · rw [if_neg hvM] at ht
      have hdel := h5 v hvn ht
      rcases hb : s2.deleted v with hF | hT
      · exfalso
        have hvAM := (hm_del v hvn).mp hb
        have := (h2 v hvn).mpr (Finset.mem_sdiff.mp hvAM).1
        exact Bool.false_ne_true (this.symm.trans hdel)
      · rfl
  · -- (vi) frontier has no duplicates
    rw [List.nodup_iff_count_le_one]
    intro v
    rw [hs3_cnt v]
    by_cases hcnd : s2.deleted v = false ∧ k + 1 ≤ s2.degrees v ∧
        s2.degrees v < k + 1 + (s2.frontier.count v : Int)
    · rw [if_pos hcnd]
    · rw [if_neg hcnd]
      omega
  · -- (vi b) frontier elements in range
    intro v hv
    exact hAMn v ((hf' v).mp hv).1
  · -- (vii) low-degree survivors are in the frontier
    intro v hv hdeg
    exact (hf' v).mpr ⟨hv, hdeg⟩
  · -- recorded core numbers
    intro v
    rw [hs3_k, hm_k v]
  · -- iteration unchanged
    rw [hs3_it, hm_it]
  · -- empty mark set means drained frontier
    intro hM
    rw [List.eq_nil_iff_forall_not_mem]
    intro v hv
    have hc := (hf' v).mp hv
    rw [hM, Finset.sdiff_empty] at hc
    have hvM : v ∈ M := Finset.mem_filter.mpr ⟨hc.1, hc.2⟩
    rw [hM] at hvM
    exact Finset.not_mem_empty v hvM
  · -- forced removals only
    intro S hSA hSdeg
    rw [Finset.disjoint_left]
    intro v hvS hvM
    have hle : degW g S v ≤ degW g A v := degW_mono g hSA v
    have hM2 := (Finset.mem_filter.mp hvM).2
    have := hSdeg v hvS
    omega

lemma kinner_of_empty (g : SimpleG) (k : Int) (fuel : Nat) (s : KState)
    (h : s.frontier = []) : kinner g k fuel s = s := by
  cases fuel with
  | zero => rfl
  | succ m => simp only [kinner, h, if_pos]

lemma kinner_run (g : SimpleG) (hWF : WellFormed g) (kN : Nat) :
    ∀ (fuel : Nat) (A : Finset Nat) (s : KState),
      KInv g kN A s → A.card + 1 ≤ fuel →
      ∃ B, B ⊆ A ∧ KInv g kN B (kinner g (kN : Int) fuel s) ∧
        (∀ v ∈ B, kN + 1 ≤ degW g B v) ∧
        (∀ S, S ⊆ A → (∀ v ∈ S, kN + 1 ≤ degW g S v) → S ⊆ B) ∧
        (∀ v, (kinner g (kN : Int) fuel s).k_cores v =
          if v ∈ A \ B then (kN : Int) else s.k_cores v) ∧
        (kinner g (kN : Int) fuel s).iteration = s.iteration := by
  intro fuel
  induction fuel with
  | zero =>
    intro A s _ hcard
    omega
  | succ m ih =>
    intro A s hinv hcard
    by_cases he : s.frontier = []
    · refine ⟨A, Finset.Subset.refl A, ?_, ?_, ?_, ?_, ?_⟩
      · simpa [kinner, he] using hinv
      · intro v hv
        by_contra hc
        have := hinv.2.2.2.2.2.2.2 v hv (by omega)
        rw [he] at this
        exact List.not_mem_nil v this
      · intro S hSA _
        exact hSA
      · intro v
        rw [if_neg (by
          rw [Finset.sdiff_self]
          exact Finset.not_mem_empty v)]
        simp [kinner, he]
      · simp [kinner, he]
    · have hstep := kinner_step g hWF kN A s hinv
      have hrecstep : kinner g (kN : Int) (m + 1) s =
          kinner g (kN : Int) m
            (kfilter (kN : Int) (kmark g (kadvance g (kN : Int) s))) := by
        simp [kinner, he]
      by_cases hM : A.filter (fun v => degW g A v ≤ kN) = ∅
      · -- nothing was marked: the next frontier is empty and the state rests
        have hfe := hstep.2.2.2.1 hM
        have hrest : kinner g (kN : Int) m
            (kfilter (kN : Int) (kmark g (kadvance g (kN : Int) s))) =
            kfilter (kN : Int) (kmark g (kadvance g (kN : Int) s)) :=
          kinner_of_empty g (kN : Int) m _ hfe
        have hAM : A \ A.filter (fun v => degW g A v ≤ kN) = A := by
          rw [hM, Finset.sdiff_empty]
        refine ⟨A, Finset.Subset.refl A, ?_, ?_, ?_, ?_, ?_⟩
        · rw [hrecstep, hrest]
          have := hstep.1
          rwa [hAM] at this
        · intro v hv
          have := Finset.filter_eq_empty_iff.mp hM hv
          omega
        · intro S hSA _
          exact hSA
        · intro v
          have hnv1 : v ∉ A.filter (fun v => degW g A v ≤ kN) := by
            rw [hM]
            exact Finset.not_mem_empty v
          have hnv2 : v ∉ A \ A := by
            rw [Finset.sdiff_self]
            exact Finset.not_mem_empty v
          rw [hrecstep, hrest, hstep.2.1 v, if_neg hnv1, if_neg hnv2]
        · rw [hrecstep, hrest]
          exact hstep.2.2.1
      · -- at least one vertex was marked and removed
        have hMA : A.filter (fun v => degW g A v ≤ kN) ⊆ A :=
          Finset.filter_subset _ _
        have hcard' : (A \ A.filter (fun v => degW g A v ≤ kN)).card + 1 ≤ m := by
          have h1 : (A \ A.filter (fun v => degW g A v ≤ kN)).card =
              A.card - (A.filter (fun v => degW g A v ≤ kN)).card :=
            Finset.card_sdiff hMA
          have h2 : 0 < (A.filter (fun v => degW g A v ≤ kN)).card :=
            Finset.card_pos.mpr (Finset.nonempty_of_ne_empty hM)
          have h3 : (A.filter (fun v => degW g A v ≤ kN)).card ≤ A.card :=
            Finset.card_le_card hMA
          omega
        obtain ⟨B, hBA', hBinv, hBfix, hBmax, hBk, hBit⟩ :=
          ih (A \ A.filter (fun v => degW g A v ≤ kN))
            (kfilter (kN : Int) (kmark g (kadvance g (kN : Int) s)))
            hstep.1 hcard'
        refine ⟨B, le_trans hBA' Finset.sdiff_subset, ?_, hBfix, ?_, ?_, ?_⟩
        · rw [hrecstep]
          exact hBinv
        · intro S hSA hSdeg
          have hdisj := hstep.2.2.2.2 S hSA hSdeg
          apply hBmax S _ hSdeg
          intro v hv
          exact Finset.mem_sdiff.mpr
            ⟨hSA hv, Finset.disjoint_left.mp hdisj hv⟩
        · intro v
          rw [hrecstep, hBk v, hstep.2.1 v]
          by_cases hv1 : v ∈ (A \ A.filter (fun v => degW g A v ≤ kN)) \ B
          · rw [if_pos hv1]
            have hvAB : v ∈ A \ B := by
              rw [Finset.mem_sdiff] at hv1 ⊢
              exact ⟨(Finset.mem_sdiff.mp hv1.1).1, hv1.2⟩
            rw [if_pos hvAB]
          · rw [if_neg hv1]
            by_cases hv2 : v ∈ A.filter (fun v => degW g A v ≤ kN)
            · rw [if_pos hv2]
              have hvAB : v ∈ A \ B := by
                rw [Finset.mem_sdiff]
                refine ⟨hMA hv2, fun hc => ?_⟩
                have := hBA' hc
                exact (Finset.mem_sdiff.mp this).2 hv2
              rw [if_pos hvAB]
            · rw [if_neg hv2]
              have hvAB : v ∉ A \ B := by
                intro hc
                obtain ⟨hvA, hvB⟩ := Finset.mem_sdiff.mp hc
                exact hv1 (Finset.mem_sdiff.mpr
                  ⟨Finset.mem_sdiff.mpr ⟨hvA, hv2⟩, hvB⟩)
              rw [if_neg hvAB]
        · rw [hrecstep, hBit]
          exact hstep.2.2.1

lemma mem_coreSet_le (g : SimpleG) (hWF : WellFormed g) (r v : Nat)
    (hv : v ∈ CoreSet g r) : r ≤ g.n := by
  by_contra hc
  rw [coreSet_empty_of_le g hWF r (by omega)] at hv
  exact Finset.not_mem_empty v hv

lemma cascade_coreSet (g : SimpleG) (kN : Nat) (B : Finset Nat)
    (hBA : B ⊆ CoreSet g kN)
    (hBfix : ∀ v ∈ B, kN + 1 ≤ degW g B v)
    (hBmax : ∀ S, S ⊆ CoreSet g kN →
      (∀ v ∈ S, kN + 1 ≤ degW g S v) → S ⊆ B) :
    B = CoreSet g (kN + 1) := by
  apply Finset.Subset.antisymm
  · exact coreSet_max g (kN + 1) B
      ⟨le_trans hBA (coreSet_subset_range g kN), hBfix⟩
  · apply hBmax
    · exact coreSet_antitone g (Nat.le_succ kN)
    · exact (coreSet_isCoreSet g (kN + 1)).2

lemma kreset_inv (g : SimpleG) (hWF : WellFormed g) (s0 : KState) :
    KInv g 1 (CoreSet g 1)
      { kreset g s0 with frontier := List.range g.n, iteration := 0 } ∧
    (∀ v, v < g.n → v ∉ CoreSet g 1 →
      ({ kreset g s0 with
          frontier := List.range g.n
          iteration := 0 } : KState).k_cores v = (coreNum g v : Int)) := by
  have hone := coreSet_one g hWF
  have hmem : ∀ v, v ∈ CoreSet g 1 ↔ (v < g.n ∧ g.adj v ≠ []) := by
    intro v
    rw [hone, Finset.mem_filter, Finset.mem_range]
  constructor
  · refine ⟨coreSet_subset_range g 1, ?_, ?_, ?_, ?_, ?_, ?_, ?_⟩
    · intro v hvn
      show (if v < g.n then _ else _) = false ↔ _
      rw [if_pos hvn, hmem v]
      simp only [decide_eq_false_iff_not, decide_eq_true_eq]
      constructor
      · intro hc
        refine ⟨hvn, fun he => hc ?_⟩
        rw [if_pos hvn, he]
        simp
      · intro hc hd
        rw [if_pos hvn] at hd
        have : (g.adj v).length = 0 := by exact_mod_cast hd
        exact hc.2 (List.length_eq_zero.mp this)
    · intro v hv
      have hvn : v < g.n := (hmem v).mp hv |>.1
      show (if v < g.n then ((g.adj v).length : Int) else _) = _
      rw [if_pos hvn]
      have hfull : (g.adj v).filter (fun w => decide (w ∈ CoreSet g 1)) =
          g.adj v := by
        apply List.filter_eq_self.mpr
        intro w hw
        have hwp := (hWF.2 v hvn).2 w hw
        simp only [decide_eq_true_eq]
        rw [hmem w]
        refine ⟨hwp.1, fun he => ?_⟩
        rw [he] at hwp
        exact List.not_mem_nil v hwp.2.2
      unfold degW
      rw [hfull]
    · intro v hv
      exact ((hmem v).mp hv).2
    · intro v hvn ht
      exfalso
      have : (if v < g.n then false else s0.to_be_deleted v) = true := ht
      rw [if_pos hvn] at this
      cases this
    · exact List.nodup_range g.n
    · intro v hv
      exact List.mem_range.mp hv
    · intro v hv _
      exact List.mem_range.mpr (Finset.mem_range.mp (coreSet_subset_range g 1
        hv))
  · intro v hvn hv
    show (if v < g.n then (0 : Int) else _) = _
    rw [if_pos hvn]
    have hc0 : coreNum g v = 0 := by
      apply coreNum_eq_of g v 0 (Nat.zero_le _)
      · rw [coreSet_zero]
        exact Finset.mem_range.mpr hvn
      · exact hv
    rw [hc0]
    rfl

lemma kgo_run (g : SimpleG) (hWF : WellFormed g) :
    ∀ (fuel r : Nat) (s : KState),
      1 ≤ r →
      ((CoreSet g r).Nonempty ∨ r = 1) →
      s.iteration = (r : Int) - 1 →
      s.frontier = List.range g.n →
      KInv g r (CoreSet g r) s →
      (∀ v, v < g.n → v ∉ CoreSet g r → s.k_cores v = (coreNum g v : Int)) →
      g.n + 2 ≤ fuel + r →
      (kgo g fuel s).2 = true ∧
      (∀ v, v < g.n → (kgo g fuel s).1.k_cores v = (coreNum g v : Int)) := by
  intro fuel
  induction fuel with
  | zero =>
    intro r s hr hne hit hfr hinv hk hfuel
    exfalso
    rcases hne with hne | hne
    · obtain ⟨v, hv⟩ := hne
      have := mem_coreSet_le g hWF r v hv
      omega
    · omega
  | succ m ih =>
    intro r s hr hne hit hfr hinv hk hfuel
    have hr1 : (r : Int) - 1 + 1 = (r : Int) := by ring
    have hkin : kloop g s = kinner g (r : Int) (g.n + 2) s := by
      unfold kloop
      rw [hit, hr1]
    have hcard : (CoreSet g r).card + 1 ≤ g.n + 2 := by
      have := Finset.card_le_card (coreSet_subset_range g r)
      rw [Finset.card_range] at this
      omega
    obtain ⟨B, hBA, hBinv, hBfix, hBmax, hBk, hBit⟩ :=
      kinner_run g hWF r (g.n + 2) (CoreSet g r) s hinv hcard
    have hBeq : B = CoreSet g (r + 1) := cascade_coreSet g r B hBA hBfix hBmax
    have hunf : kgo g (m + 1) s =
        (if (kconverged g { kinner g (r : Int) (g.n + 2) s with
            iteration := (kinner g (r : Int) (g.n + 2) s).iteration + 1 }).2
          then ((kconverged g { kinner g (r : Int) (g.n + 2) s with
            iteration := (kinner g (r : Int) (g.n + 2) s).iteration + 1 }).1,
            true)
          else kgo g m (kconverged g { kinner g (r : Int) (g.n + 2) s with
            iteration := (kinner g (r : Int) (g.n + 2) s).iteration + 1 }).1) := by
      simp only [kgo]
      rw [hkin]
    have hdel2 : ∀ v, v < g.n →
        ((kinner g (r : Int) (g.n + 2) s).deleted v = false ↔ v ∈ B) :=
      hBinv.2.1
    by_cases hBem : B = ∅
    · have hdec : ∀ v, v < g.n → (kinner g (r : Int) (g.n + 2) s).deleted v
          = true := by
        intro v hvn
        rcases hb : (kinner g (r : Int) (g.n + 2) s).deleted v with hF | hT
        · exfalso
          have := (hdel2 v hvn).mp hb
          rw [hBem] at this
          exact Finset.not_mem_empty v this
        · rfl
      have hcv : (kconverged g { kinner g (r : Int) (g.n + 2) s with
          iteration := (kinner g (r : Int) (g.n + 2) s).iteration + 1 }).2
          = true := by
        simp only [kconverged, decide_eq_true_eq]
        exact hdec
      rw [hunf, if_pos hcv]
      refine ⟨rfl, fun v hvn => ?_⟩
      show (kinner g (r : Int) (g.n + 2) s).k_cores v = _
      rw [hBk v]
      by_cases hvA : v ∈ CoreSet g r
      · have hvAB : v ∈ CoreSet g r \ B := by
          rw [Finset.mem_sdiff]
          exact ⟨hvA, by rw [hBem]; exact Finset.not_mem_empty v⟩
        rw [if_pos hvAB]
        have hcn : coreNum g v = r := by
          apply coreNum_eq_of g v r (mem_coreSet_le g hWF r v hvA) hvA
          rw [← hBeq, hBem]
          exact Finset.not_mem_empty v
        rw [hcn]
      · rw [if_neg (fun hc => hvA (Finset.mem_sdiff.mp hc).1)]
        exact hk v hvn hvA
    · have hex : ∃ v, v < g.n ∧
          (kinner g (r : Int) (g.n + 2) s).deleted v = false := by
        obtain ⟨v, hv⟩ := Finset.nonempty_of_ne_empty hBem
        refine ⟨v, Finset.mem_range.mp (coreSet_subset_range g (r + 1)
          (hBeq ▸ hv)), (hdel2 v ?_).mpr hv⟩
        exact Finset.mem_range.mp (coreSet_subset_range g (r + 1) (hBeq ▸ hv))
      have hcv : (kconverged g { kinner g (r : Int) (g.n + 2) s with
          iteration := (kinner g (r : Int) (g.n + 2) s).iteration + 1 }).2
          = false := by
        simp only [kconverged, decide_eq_false_iff_not]
        intro hc
        obtain ⟨v, hvn, hvd⟩ := hex
        exact absurd (hc v hvn) (by rw [hvd]; simp)
      rw [hunf, if_neg (by rw [hcv]; simp)]
      obtain ⟨hb1, hb2, hb3, hb4, hb5, hb6, hb7, hb8⟩ := hBinv
      apply ih (r + 1)
      · omega
      · exact Or.inl (hBeq ▸ Finset.nonempty_of_ne_empty hBem)
      · show (kinner g (r : Int) (g.n + 2) s).iteration + 1 = _
        rw [hBit, hit]
        push_cast
        ring
      · rfl
      · refine ⟨?_, ?_, ?_, ?_, ?_, ?_, ?_, ?_⟩
        · exact hBeq ▸ hb1
        · intro v hvn
          exact hBeq ▸ hdel2 v hvn
        · intro v hv
          show (kinner g (r : Int) (g.n + 2) s).degrees v = _
          exact hBeq ▸ hb3 v (hBeq ▸ hv)
        · intro v hv
          exact hb4 v (hBeq ▸ hv)
        · intro v hvn ht
          exact hb5 v hvn ht
        · exact List.nodup_range g.n
        · intro v hv
          exact List.mem_range.mp hv
        · intro v hv _
          exact List.mem_range.mpr (Finset.mem_range.mp
            (coreSet_subset_range g (r + 1) hv))
      · intro v hvn hv
        show (kinner g (r : Int) (g.n + 2) s).k_cores v = _
        rw [hBk v]
        by_cases hvA : v ∈ CoreSet g r
        · have hvAB : v ∈ CoreSet g r \ B := by
            rw [Finset.mem_sdiff]
            exact ⟨hvA, fun hc => hv (hBeq ▸ hc)⟩
          rw [if_pos hvAB]
          have hcn : coreNum g v = r := by
            apply coreNum_eq_of g v r (mem_coreSet_le g hWF r v hvA) hvA
            rw [← hBeq]
            exact fun hc => hv (hBeq ▸ hc)
          rw [hcn]
        · rw [if_neg (fun hc => hvA (Finset.mem_sdiff.mp hc).1)]
          exact hk v hvn hvA
      · omega

/-- C1: on any well-formed graph, the k-core run converges (given at least
n + 1 rounds of driver budget) and the core number it reports for every
vertex equals the core number produced by the reference
repeated-min-degree-peeling algorithm. -/
theorem c1_kcore_refines_peeling (g : SimpleG) (hWF : WellFormed g)
    (s0 : KState) (fuel : Nat) (hfuel : g.n + 1 ≤ fuel) (v : Nat)
    (hv : v < g.n) :
    (kenact g s0 fuel).2 = true ∧
    (kenact g s0 fuel).1.k_cores v = (peelCores g v : Int) := by
  have hreset := kreset_inv g hWF s0
  have hrun := kgo_run g hWF fuel 1
    { kreset g s0 with frontier := List.range g.n, iteration := 0 }
    (le_refl 1) (Or.inr rfl) (by norm_num) rfl hreset.1 hreset.2 (by omega)
  refine ⟨hrun.1, ?_⟩
  have hkey : kenact g s0 fuel = kgo g fuel { kreset g s0 with frontier := List.range g.n, iteration := 0 } := rfl
  rw [hkey, hrun.2 v hv, peel_eq_coreNum g hWF v hv]

/-- C1 witness: the refinement theorem evaluated on the triangle graph,
whose degeneracy is 2. -/
theorem c1_witness :
    WellFormed triG ∧ (kenact triG kzero 4).2 = true ∧
    (kenact triG kzero 4).1.k_cores 0 = (peelCores triG 0 : Int) :=
  ⟨by decide, (c1_kcore_refines_peeling triG (by decide) kzero 4 (by decide)
      0 (by decide)).1,
    (c1_kcore_refines_peeling triG (by decide) kzero 4 (by decide)
      0 (by decide)).2⟩

end Essentials
